import Mathlib

/-!
Verification of a checkers rules engine.

The engine is embedded shallowly: a tile is identified by its board
position (each board position holds exactly one tile object, so object
identity coincides with position equality), the board is the list of the
64 tiles' occupants indexed by row * 8 + column, and the recursive DFS
path search is given an explicit fuel parameter (its recursion depth is
bounded by the 64 squares, so any sufficiently large fuel reproduces the
source behaviour; the safety theorems below are proved for every fuel).
-/

namespace Checkers

inductive Player where
  | blue
  | red
deriving DecidableEq, Repr

inductive PieceType where
  | queen
  | pawn
deriving DecidableEq, Repr

structure Piece where
  owner : Player
  type : PieceType
deriving DecidableEq, Repr

/-- A tile, identified by its (row, column) coordinates. -/
structure Pos where
  row : Int
  col : Int
deriving DecidableEq, Repr

/-- The board: occupant of each of the 64 tiles, indexed by row * 8 + col. -/
abbrev Board := List (Option Piece)

def inBounds (r c : Int) : Bool :=
  0 ≤ r && r < 8 && 0 ≤ c && c < 8

def Pos.inB (p : Pos) : Bool := inBounds p.row p.col

def tileIndex (p : Pos) : Nat := (p.row * 8 + p.col).toNat

def posOfIndex (i : Nat) : Pos := ⟨(i / 8 : Nat), (i % 8 : Nat)⟩

/-- Board.getTile: the tile at (row, column), none outside the 8 x 8 grid. -/
def getTile (r c : Int) : Option Pos :=
  if inBounds r c then some ⟨r, c⟩ else none

/-- Tile.getPiece of the tile at position p. -/
def getPieceAt (b : Board) (p : Pos) : Option Piece :=
  if p.inB then b.getD (tileIndex p) none else none

/-- Tile.setPiece on the tile at position p. -/
def setPieceAt (b : Board) (p : Pos) (pc : Option Piece) : Board :=
  b.set (tileIndex p) pc

/-- Board.getTiles: the 64 tiles in index order. -/
def allTiles : List Pos := (List.range 64).map posOfIndex

def isTileOcuppied (b : Board) (p : Pos) : Bool :=
  (getPieceAt b p).isSome

def tileBelongsToPlayer (b : Board) (p : Pos) (player : Player) : Bool :=
  match getPieceAt b p with
  | some pc => pc.owner = player
  | none => false

def isQueen (pc : Piece) : Bool := pc.type = PieceType.queen

/-- Possible [delta column, delta row] movements of a piece. -/
def getDirections (pc : Piece) : List (Int × Int) :=
  if isQueen pc then [(1, 1), (1, -1), (-1, 1), (-1, -1)]
  else if pc.owner = Player.blue then [(-1, 1), (1, 1)]
  else [(-1, -1), (1, -1)]

/-- Loop body of getAdjacentLandings: the squares pushed for one
direction — the adjacent square when it is empty, and again when it is
the starting tile (so a cycle can close back on it). -/
def landingsFor (b : Board) (startingTile tile : Pos) (d : Int × Int) :
    List Pos :=
  match getTile (tile.row + d.2) (tile.col + d.1) with
  | none => []
  | some destination =>
      (if !isTileOcuppied b destination then [destination] else []) ++
      (if destination = startingTile then [destination] else [])

/-- Adjacent tiles on which the piece can land, optionally filtered to the
direction of a capture just made. -/
def getAdjacentLandings (b : Board) (startingTile tile : Pos) (pc : Piece)
    (captureXDirection captureYDirection : Option Int) : List Pos :=
  let dirs0 : List (Int × Int) := getDirections pc
  let dirs1 : List (Int × Int) := match captureXDirection with
    | some x => dirs0.filter (fun d => d.1 == x)
    | none => dirs0
  let dirs : List (Int × Int) := match captureYDirection with
    | some y => dirs1.filter (fun d => d.2 == y)
    | none => dirs1
  dirs.foldr (fun d acc => landingsFor b startingTile tile d ++ acc) []

/-- Loop body of getAdjacentEnemies: the adjacent square in one direction
when it holds an enemy of the moving piece. -/
def enemiesFor (b : Board) (tile : Pos) (pc : Piece) (d : Int × Int) :
    List Pos :=
  match getTile (tile.row + d.2) (tile.col + d.1) with
  | none => []
  | some destination =>
      if isTileOcuppied b destination &&
          !tileBelongsToPlayer b destination pc.owner
       then [destination] else []

/-- Adjacent tiles holding an enemy of the moving piece. -/
def getAdjacentEnemies (b : Board) (tile : Pos) (pc : Piece) : List Pos :=
  (getDirections pc).foldr (fun d acc => enemiesFor b tile pc d ++ acc) []

def isFirstMove (path : List Pos) : Bool := path.length == 1

def isPotentialCapture (b : Board) (tile : Pos) (path : List Pos) : Bool :=
  isTileOcuppied b tile && decide (1 < path.length)

def canLookForEnemies (b : Board) (tile startingTile : Pos)
    (path : List Pos) : Bool :=
  (!isTileOcuppied b tile && decide (2 < path.length)) ||
  (decide (tile = startingTile) && decide (path.length = 1))

/-- X direction of the last step of a path: the difference between the
columns of its last two entries (path.at(-1) minus path.at(-2)). -/
def pathXDirection (path : List Pos) : Option Int :=
  match (path[path.length - 2]?).map Pos.col,
        (path[path.length - 1]?).map Pos.col with
  | some fromColumn, some toColumn => some (toColumn - fromColumn)
  | _, _ => none

/-- Y direction of the last step of a path: the difference between the
rows of its last two entries. -/
def pathYDirection (path : List Pos) : Option Int :=
  match (path[path.length - 2]?).map Pos.row,
        (path[path.length - 1]?).map Pos.row with
  | some fromRow, some toRow => some (toRow - fromRow)
  | _, _ => none

/-- The recursive DFS over the move graph.  It returns the list of paths
pushed onto the move's possiblePaths during the call, in push order.  The
fuel argument bounds the recursion depth; each recursive call extends the
path with a square not yet on it, so fuel 64 already covers every run. -/
def setPathsDFS (b : Board) (startingTile : Pos) (pc : Piece) :
    Nat → Pos → List Pos → List (List Pos)
  | 0, _, _ => []
  | fuel + 1, fr, path0 =>
    let path := path0 ++ [fr]
    let r1 : List (List Pos) :=
      if isFirstMove path then
        (getAdjacentLandings b startingTile fr pc none none).foldr
          (fun landing acc => setPathsDFS b startingTile pc fuel landing path ++ acc) []
      else []
    let r2 : List (List Pos) :=
      if isPotentialCapture b fr path then
        (getAdjacentLandings b startingTile fr pc
            (pathXDirection path) (pathYDirection path)).foldr
          (fun landing acc =>
            (if landing ∈ path then
               (if landing = startingTile ∧ 2 < path.length
                then [path ++ [landing]] else [])
             else setPathsDFS b startingTile pc fuel landing path) ++ acc) []
      else []
    let r3 : List (List Pos) :=
      if canLookForEnemies b fr startingTile path then
        (getAdjacentEnemies b fr pc).foldr
          (fun enemy acc =>
            (if enemy ∈ path then []
             else setPathsDFS b startingTile pc fuel enemy path) ++ acc) []
      else []
    let r4 : List (List Pos) := if !isTileOcuppied b fr then [path] else []
    r1 ++ r2 ++ r3 ++ r4

/-- Fuel used by the engine's entry points; ample for the 64-square board. -/
def FUEL : Nat := 64

inductive GameStatus where
  | active
  | inactive
deriving DecidableEq, Repr

inductive TileOwner where
  | bluePawn
  | redPawn
  | blueQueen
  | redQueen
  | none
deriving DecidableEq, Repr

structure TileInstruction where
  rowToSet : Int
  colToSet : Int
  newOwner : TileOwner
deriving DecidableEq, Repr

structure Instruction where
  tileInstructions : List TileInstruction
  playing : Player
  winner : Option Player
deriving DecidableEq, Repr

structure ValidDestination where
  path : List Pos
  destination : Pos
  captures : List Pos
deriving DecidableEq, Repr

structure Move where
  fromT : Option Pos
  toT : Option Pos
  possiblePaths : List (List Pos)
  validDestinations : List ValidDestination
deriving DecidableEq, Repr

structure GameState where
  board : Board
  status : GameStatus
  winner : Option Player
  move : Move
  activePlayer : Player
deriving DecidableEq, Repr

inductive Variant where
  | base
  | bonus
deriving DecidableEq, Repr

def emptyMove : Move := ⟨none, none, [], []⟩

def rival : Player → Player
  | .blue => .red
  | .red => .blue

def queenOwnerString : Player → TileOwner
  | .blue => .blueQueen
  | .red => .redQueen

def getTileOwnerString (b : Board) (p : Pos) : TileOwner :=
  match getPieceAt b p with
  | some ⟨.blue, .pawn⟩ => .bluePawn
  | some ⟨.red, .pawn⟩ => .redPawn
  | some ⟨.blue, .queen⟩ => .blueQueen
  | some ⟨.red, .queen⟩ => .redQueen
  | none => .none

/-- The tile holding the player's queen, if any. -/
def getQueen (b : Board) (player : Player) : Option Pos :=
  allTiles.find? (fun p =>
    decide (getPieceAt b p = some ⟨player, PieceType.queen⟩))

def playerHasQueen (b : Board) (player : Player) : Bool :=
  (getQueen b player).isSome

def hasPlayerWon (b : Board) (player : Player) : Bool :=
  let winningRow : Int := if player = Player.blue then 7 else 0
  match getQueen b player with
  | some q => q.row = winningRow
  | none => false

/-- Tiles with idle pieces: the player's pieces on the row furthest from
the opposite side of the board. -/
def getIdlePieceTiles (b : Board) (player : Player) : List Pos :=
  let tiles := allTiles.filter (fun p => tileBelongsToPlayer b p player)
  let furthestRow : Int :=
    if player = Player.blue then
      tiles.foldl (fun acc t => if t.row < acc then t.row else acc) 7
    else
      tiles.foldl (fun acc t => if acc < t.row then t.row else acc) 0
  tiles.filter (fun t => t.row == furthestRow)

def isValidQueen (b : Board) (tile : Pos) (player : Player) : Bool :=
  (getIdlePieceTiles b player).any (fun idle => idle = tile)

def rivalHasPieces (b : Board) (player : Player) : Bool :=
  allTiles.any (fun p => tileBelongsToPlayer b p (rival player))

/-- Remove the captured pieces from the board. -/
def capture (b : Board) (captures : List Pos) : Board :=
  captures.foldl (fun bb t => setPieceAt bb t none) b

/-- Tiles with opposing pieces to capture along a path. -/
def getCapturesForPath (b : Board) (path : List Pos) (player : Player) :
    List Pos :=
  path.filter (fun t =>
    isTileOcuppied b t && !tileBelongsToPlayer b t player)

def mkValidDestination (b : Board) (player : Player) (path : List Pos) :
    ValidDestination :=
  { destination := path.getLastD ⟨0, 0⟩
    captures := getCapturesForPath b path player
    path := path }

/-- setValidDestinations of the two variants, appending to the move's
validDestinations the destination objects of the kept paths: the base
game keeps exactly the paths of length 3 or 2, the bonus game keeps only
the capturing paths (length greater than 2) whenever one exists. -/
def setValidDestinationsMove (v : Variant) (b : Board) (player : Player)
    (m : Move) : Move :=
  match v with
  | .base =>
    let validPaths := m.possiblePaths.filter
      (fun path => path.length == 3 || path.length == 2)
    { m with validDestinations :=
        m.validDestinations ++ validPaths.map (mkValidDestination b player) }
  | .bonus =>
    let paths := m.possiblePaths
    let validPaths :=
      if paths.any (fun path => decide (2 < path.length)) then
        paths.filter (fun path => decide (2 < path.length))
      else paths
    { m with validDestinations :=
        m.validDestinations ++ validPaths.map (mkValidDestination b player) }

/-- setFrom: record the from tile, run the DFS from it and compute the
valid destinations. -/
def setFromMove (v : Variant) (b : Board) (player : Player) (tile : Pos)
    (m : Move) : Move :=
  match getPieceAt b tile with
  | some piece =>
    setValidDestinationsMove v b player
      { m with fromT := some tile
               possiblePaths :=
                 m.possiblePaths ++ setPathsDFS b tile piece FUEL tile [] }
  | none => { m with fromT := some tile }

/-- The validDestinations the simulation inside isFromValid computes for
one candidate from tile (the move is reset before and after). -/
def simulateValidDestinations (v : Variant) (b : Board) (player : Player)
    (tile : Pos) (piece : Piece) : List ValidDestination :=
  (setValidDestinationsMove v b player
    { fromT := some tile
      toT := none
      possiblePaths := setPathsDFS b tile piece FUEL tile []
      validDestinations := [] }).validDestinations

/-- BaseGame.isFromValid: the tile is owned by the player and its piece
has at least one valid destination. -/
def baseFromValid (b : Board) (tile : Pos) (player : Player) : Bool :=
  if tileBelongsToPlayer b tile player then
    match getPieceAt b tile with
    | none => false
    | some piece =>
      !(simulateValidDestinations .base b player tile piece).isEmpty
  else false

/-- Loop body of BonusGame.isFromValid: the simulation for one candidate
from tile produced a destination with captures. -/
def fromHasCaptures (b : Board) (player : Player) (f : Pos) : Bool :=
  match getPieceAt b f with
  | some piece =>
    (simulateValidDestinations .bonus b player f piece).any
      (fun vd => !vd.captures.isEmpty)
  | none => false

/-- Loop body of BonusGame.isFromValid: the simulation for one candidate
from tile produced at least one destination. -/
def fromHasDestinations (b : Board) (player : Player) (f : Pos) : Bool :=
  match getPieceAt b f with
  | some piece =>
    !(simulateValidDestinations .bonus b player f piece).isEmpty
  | none => false

/-- BonusGame.isFromValid: looping over all the player's pieces, captures
are forced whenever one of them has a capturing destination. -/
def bonusFromValid (b : Board) (tile : Pos) (player : Player) : Bool :=
  if tileBelongsToPlayer b tile player then
    let allFroms := allTiles.filter (fun p => tileBelongsToPlayer b p player)
    let fromsWithCaptures :=
      allFroms.filter (fun f => fromHasCaptures b player f)
    let fromsWithDestinations :=
      allFroms.filter (fun f => fromHasDestinations b player f)
    if fromsWithCaptures.isEmpty then decide (tile ∈ fromsWithDestinations)
    else decide (tile ∈ fromsWithCaptures)
  else false

def isFromValid (v : Variant) (b : Board) (tile : Pos) (player : Player) :
    Bool :=
  match v with
  | .base => baseFromValid b tile player
  | .bonus => bonusFromValid b tile player

/-- Net effect of isFromValid on the move scratch state: when the tile
belongs to the player both variants reset the move after simulating;
otherwise the move is untouched. -/
def isFromValidPost (v : Variant) (b : Board) (m : Move) (tile : Pos)
    (player : Player) : Bool × Move :=
  if tileBelongsToPlayer b tile player then
    (isFromValid v b tile player, emptyMove)
  else (false, m)

def isToValid (m : Move) (tile : Pos) : Bool :=
  m.validDestinations.any (fun vd => vd.destination = tile)

def getCapturesForDestination (m : Move) (tile : Pos) : List Pos :=
  match m.validDestinations.find? (fun vd => vd.destination = tile) with
  | some vd => vd.captures
  | none => []

def getCaptureInstructions (captures : List Pos) : List TileInstruction :=
  captures.map (fun c => ⟨c.row, c.col, .none⟩)

/-- Queen-selection branch of playGame: promote the clicked idle piece to
a queen, then check for an immediate win. -/
def promoteQueen (s : GameState) (row col : Int) (clickedTile : Pos) :
    Option Instruction × GameState :=
  let activePlayer := s.activePlayer
  let b1 := setPieceAt s.board clickedTile (some ⟨activePlayer, .queen⟩)
  let s1 := { s with board := b1 }
  let s2 :=
    if hasPlayerWon b1 activePlayer then
      { s1 with winner := some activePlayer, status := .inactive }
    else s1
  (some { tileInstructions := [⟨row, col, queenOwnerString activePlayer⟩]
          playing := activePlayer
          winner := s2.winner }, s2)

/-- From-selection branch of playGame: record the from tile, compute the
paths and destinations, and tell the UI to lift the piece. -/
def selectFrom (v : Variant) (s : GameState) (row col : Int)
    (clickedTile : Pos) (m : Move) : Option Instruction × GameState :=
  let s1 := { s with move := setFromMove v s.board s.activePlayer clickedTile m }
  (some { tileInstructions := [⟨row, col, .none⟩]
          playing := s.activePlayer
          winner := s1.winner }, s1)

/-- Cancel branch of playGame: the player clicked the from tile again, so
the piece is put back and the move is reset. -/
def cancelMove (s : GameState) (row col : Int) (f : Pos) :
    Option Instruction × GameState :=
  (some { tileInstructions := [⟨row, col, getTileOwnerString s.board f⟩]
          playing := s.activePlayer
          winner := s.winner }, { s with move := emptyMove })

/-- Destination branch of playGame: remove the captured pieces, move the
piece from the from tile to the clicked tile, check for a win, otherwise
hand the turn over when the rival still has pieces, and reset the move. -/
def applyMove (s : GameState) (row col : Int) (clickedTile f : Pos) :
    Option Instruction × GameState :=
  let activePlayer := s.activePlayer
  let fromOwner := getTileOwnerString s.board f
  let captures := getCapturesForDestination s.move clickedTile
  let captureInstructions := getCaptureInstructions captures
  let b1 := capture s.board captures
  let b2 := setPieceAt b1 clickedTile (getPieceAt b1 f)
  let b3 := setPieceAt b2 f none
  let m1 : Move := { s.move with toT := some clickedTile }
  let s1 := { s with board := b3, move := m1 }
  let s2 :=
    if hasPlayerWon b3 activePlayer then
      { s1 with winner := some activePlayer, status := .inactive }
    else if rivalHasPieces b3 activePlayer then
      { s1 with activePlayer := rival activePlayer }
    else s1
  (some { tileInstructions := ⟨row, col, fromOwner⟩ :: captureInstructions
          playing := s2.activePlayer
          winner := s2.winner }, { s2 with move := emptyMove })

/-- playGame: process one click, returning the UI instruction (none when
the click is ignored) together with the updated game state. -/
def playGame (v : Variant) (s : GameState) (row col : Int) :
    Option Instruction × GameState :=
  let activePlayer := s.activePlayer
  match getTile row col with
  | none => (none, s)
  | some clickedTile =>
    if s.winner.isSome then (none, s)
    else if !playerHasQueen s.board activePlayer then
      if isValidQueen s.board clickedTile activePlayer then
        promoteQueen s row col clickedTile
      else (none, s)
    else if !s.move.fromT.isSome then
      let okMove := isFromValidPost v s.board s.move clickedTile activePlayer
      if okMove.1 then selectFrom v s row col clickedTile okMove.2
      else (none, { s with move := okMove.2 })
    else if s.move.fromT.isSome && !s.move.toT.isSome then
      match s.move.fromT with
      | some f =>
        if f = clickedTile then cancelMove s row col f
        else if isToValid s.move clickedTile then
          applyMove s row col clickedTile f
        else (none, s)
      | none => (none, s)
    else (none, s)

/-- The initial board: blue on the playable squares of the first three
rows with a queen at (0,0), red on the last three with a queen at (7,7). -/
def initialBoard : Board :=
  (List.range 64).map (fun index =>
    let column : Int := (index % 8 : Nat)
    let row : Int := (index / 8 : Nat)
    if (row + column) % 2 = 0 then
      if index < 24 then
        some (if index = 0 then ⟨.blue, .queen⟩ else ⟨.blue, .pawn⟩)
      else if 40 < index then
        some (if index = 63 then ⟨.red, .queen⟩ else ⟨.red, .pawn⟩)
      else none
    else none)

def initialState : GameState :=
  { board := initialBoard
    status := .active
    winner := none
    move := emptyMove
    activePlayer := .blue }

/-! ### Basic lemmas about the board and the adjacency helpers -/

theorem mem_foldr_append {α β : Type} (f : α → List β) (l : List α) (x : β) :
    x ∈ l.foldr (fun a acc => f a ++ acc) [] ↔ ∃ a ∈ l, x ∈ f a := by
  induction l with
  | nil => simp
  | cons a t ih => simp [ih]

theorem getTile_eq_some {r c : Int} {p : Pos} (h : getTile r c = some p) :
    p = ⟨r, c⟩ ∧ inBounds r c = true := by
  unfold getTile at h
  split at h
  · exact ⟨(Option.some.injEq _ _ ▸ h).symm, by assumption⟩
  · cases h

theorem getDirections_dy {pc : Piece} {d : Int × Int}
    (hd : d ∈ getDirections pc) : d.2 = 1 ∨ d.2 = -1 := by
  unfold getDirections at hd
  split at hd
  · fin_cases hd <;> simp
  · split at hd <;> fin_cases hd <;> simp

@[simp] theorem Pos.inB_mk (r c : Int) :
    (Pos.mk r c).inB = inBounds r c := rfl

theorem mem_landingsFor {b : Board} {st t : Pos} {d : Int × Int} {l : Pos}
    (hl : l ∈ landingsFor b st t d) :
    l = ⟨t.row + d.2, t.col + d.1⟩ ∧ l.inB = true ∧
      (isTileOcuppied b l = false ∨ l = st) := by
  unfold landingsFor at hl
  split at hl
  · simp at hl
  · rename_i dest hgt
    obtain ⟨hdest, hb⟩ := getTile_eq_some hgt
    have hbd : dest.inB = true := by rw [hdest]; simpa using hb
    simp only [List.mem_append] at hl
    have hld : l = dest ∧ (isTileOcuppied b l = false ∨ l = st) := by
      rcases hl with h | h <;> split at h <;> simp_all
    exact ⟨hld.1.trans hdest, hld.1 ▸ hbd, hld.2⟩

theorem mem_getAdjacentLandings {b : Board} {st t : Pos} {pc : Piece}
    {cx cy : Option Int} {l : Pos}
    (hl : l ∈ getAdjacentLandings b st t pc cx cy) :
    ∃ d ∈ getDirections pc,
      l = ⟨t.row + d.2, t.col + d.1⟩ ∧ l.inB = true ∧
      (isTileOcuppied b l = false ∨ l = st) ∧
      (∀ x, cx = some x → d.1 = x) ∧ (∀ y, cy = some y → d.2 = y) := by
  simp only [getAdjacentLandings, mem_foldr_append] at hl
  obtain ⟨d, hd, hmem⟩ := hl
  have hdirs : d ∈ getDirections pc ∧
      (∀ x, cx = some x → d.1 = x) ∧ (∀ y, cy = some y → d.2 = y) := by
    rcases cx with _ | x <;> rcases cy with _ | y <;>
      simp_all [List.mem_filter]
  obtain ⟨h1, h2, h3⟩ := mem_landingsFor hmem
  exact ⟨d, hdirs.1, h1, h2, h3, hdirs.2.1, hdirs.2.2⟩

theorem mem_enemiesFor {b : Board} {t : Pos} {pc : Piece} {d : Int × Int}
    {e : Pos} (he : e ∈ enemiesFor b t pc d) :
    e = ⟨t.row + d.2, t.col + d.1⟩ ∧ e.inB = true ∧
      isTileOcuppied b e = true ∧
      tileBelongsToPlayer b e pc.owner = false := by
  unfold enemiesFor at he
  split at he
  · simp at he
  · rename_i dest hgt
    obtain ⟨hdest, hb⟩ := getTile_eq_some hgt
    subst hdest
    split at he <;> simp_all

theorem mem_getAdjacentEnemies {b : Board} {t : Pos} {pc : Piece} {e : Pos}
    (he : e ∈ getAdjacentEnemies b t pc) :
    ∃ d ∈ getDirections pc,
      e = ⟨t.row + d.2, t.col + d.1⟩ ∧ e.inB = true ∧
      isTileOcuppied b e = true ∧
      tileBelongsToPlayer b e pc.owner = false := by
  simp only [getAdjacentEnemies, mem_foldr_append] at he
  obtain ⟨d, hd, hmem⟩ := he
  obtain ⟨h1, h2, h3, h4⟩ := mem_enemiesFor hmem
  exact ⟨d, hd, h1, h2, h3, h4⟩

/-- A landing or enemy square differs from the square it is adjacent to. -/
theorem adjacent_ne {t l : Pos} {d : Int × Int} (hd : d.2 = 1 ∨ d.2 = -1)
    (hl : l = ⟨t.row + d.2, t.col + d.1⟩) : l ≠ t := by
  rcases hd with h | h <;> (subst hl; intro hc; rw [Pos.mk.injEq] at hc; omega)

theorem landing_ne {b : Board} {st t : Pos} {pc : Piece} {cx cy : Option Int}
    {l : Pos} (hl : l ∈ getAdjacentLandings b st t pc cx cy) : l ≠ t := by
  obtain ⟨d, hd, h1, -⟩ := mem_getAdjacentLandings hl
  exact adjacent_ne (getDirections_dy hd) h1

theorem enemy_ne {b : Board} {t : Pos} {pc : Piece} {e : Pos}
    (he : e ∈ getAdjacentEnemies b t pc) : e ≠ t := by
  obtain ⟨d, hd, h1, -⟩ := mem_getAdjacentEnemies he
  exact adjacent_ne (getDirections_dy hd) h1

/-! ### Structure of the DFS result -/

/-- Case analysis on how a path got into the DFS result: through the
first-move recursion, the capture-continuation recursion, the cyclic
return push, the enemy-discovery recursion, or the final push of the
accumulated path on an empty square. -/
theorem mem_setPathsDFS_succ {b : Board} {st : Pos} {pc : Piece}
    {fuel : Nat} {fr : Pos} {path0 : List Pos} {p : List Pos}
    (hp : p ∈ setPathsDFS b st pc (fuel + 1) fr path0) :
    (isFirstMove (path0 ++ [fr]) = true ∧
      ∃ l ∈ getAdjacentLandings b st fr pc none none,
        p ∈ setPathsDFS b st pc fuel l (path0 ++ [fr])) ∨
    (isPotentialCapture b fr (path0 ++ [fr]) = true ∧
      ∃ l ∈ getAdjacentLandings b st fr pc
          (pathXDirection (path0 ++ [fr])) (pathYDirection (path0 ++ [fr])),
        ((l ∉ path0 ++ [fr] ∧ p ∈ setPathsDFS b st pc fuel l (path0 ++ [fr])) ∨
         (l ∈ path0 ++ [fr] ∧ l = st ∧ 2 < (path0 ++ [fr]).length ∧
           p = (path0 ++ [fr]) ++ [l]))) ∨
    (canLookForEnemies b fr st (path0 ++ [fr]) = true ∧
      ∃ e ∈ getAdjacentEnemies b fr pc,
        e ∉ path0 ++ [fr] ∧ p ∈ setPathsDFS b st pc fuel e (path0 ++ [fr])) ∨
    (isTileOcuppied b fr = false ∧ p = path0 ++ [fr]) := by
  simp only [setPathsDFS] at hp
  rcases List.mem_append.1 hp with hp' | h4
  rcases List.mem_append.1 hp' with hp'' | h3
  rcases List.mem_append.1 hp'' with h1 | h2
  · left
    split at h1
    · rw [mem_foldr_append] at h1
      exact ⟨by assumption, h1⟩
    · simp at h1
  · right; left
    split at h2
    · rw [mem_foldr_append] at h2
      obtain ⟨l, hl, hmem⟩ := h2
      refine ⟨by assumption, l, hl, ?_⟩
      by_cases hin : l ∈ path0 ++ [fr]
      · rw [if_pos hin] at hmem
        split at hmem
        · simp only [List.mem_singleton] at hmem
          rename_i hc
          exact Or.inr ⟨hin, hc.1, hc.2, hmem⟩
        · simp at hmem
      · rw [if_neg hin] at hmem
        exact Or.inl ⟨hin, hmem⟩
    · simp at h2
  · right; right; left
    split at h3
    · rw [mem_foldr_append] at h3
      obtain ⟨e, he, hmem⟩ := h3
      refine ⟨by assumption, e, he, ?_⟩
      by_cases hin : e ∈ path0 ++ [fr]
      · rw [if_pos hin] at hmem; simp at hmem
      · rw [if_neg hin] at hmem; exact ⟨hin, hmem⟩
    · simp at h3
  · right; right; right
    split at h4
    · simp only [List.mem_singleton] at h4
      rename_i hc
      refine ⟨?_, h4⟩
      simpa using hc
    · simp at h4

theorem occ_false_iff {b : Board} {p : Pos} :
    isTileOcuppied b p = false ↔ getPieceAt b p = none := by
  unfold isTileOcuppied
  cases getPieceAt b p <;> simp

theorem head?_append_left {α : Type} (l s : List α) (a : α) :
    ((l ++ [a]) ++ s).head? = (l ++ [a]).head? := by
  cases l <;> simp [List.head?_append]

theorem nodup_concat_of {α : Type} {l : List α} {a : α}
    (h1 : l.Nodup) (h2 : a ∉ l) : (l ++ [a]).Nodup := by
  rw [List.nodup_append]
  refine ⟨h1, List.nodup_singleton a, ?_⟩
  intro x hx hxa
  rw [List.mem_singleton] at hxa
  subst hxa
  exact h2 hx

/-- Every recorded path extends the accumulated path plus the current
square. -/
theorem setPathsDFS_extends {b : Board} {st : Pos} {pc : Piece} :
    ∀ (fuel : Nat) (fr : Pos) (path0 p : List Pos),
      p ∈ setPathsDFS b st pc fuel fr path0 →
      ∃ suf, p = (path0 ++ [fr]) ++ suf := by
  intro fuel
  induction fuel with
  | zero => intro fr path0 p hp; simp [setPathsDFS] at hp
  | succ n ih =>
    intro fr path0 p hp
    rcases mem_setPathsDFS_succ hp with
      ⟨-, l, -, hm⟩ | ⟨-, l, -, ⟨-, hm⟩ | ⟨-, -, -, rfl⟩⟩ | ⟨-, e, -, -, hm⟩ |
      ⟨-, rfl⟩
    · obtain ⟨suf, rfl⟩ := ih l (path0 ++ [fr]) p hm
      exact ⟨[l] ++ suf, by simp⟩
    · obtain ⟨suf, rfl⟩ := ih l (path0 ++ [fr]) p hm
      exact ⟨[l] ++ suf, by simp⟩
    · exact ⟨[l], rfl⟩
    · obtain ⟨suf, rfl⟩ := ih e (path0 ++ [fr]) p hm
      exact ⟨[e] ++ suf, by simp⟩
    · exact ⟨[], by simp⟩

/-- Every recorded path starts with the head of the accumulated path. -/
theorem setPathsDFS_head {b : Board} {st : Pos} {pc : Piece} {fuel : Nat}
    {fr : Pos} {path0 p : List Pos}
    (hp : p ∈ setPathsDFS b st pc fuel fr path0) :
    p.head? = (path0 ++ [fr]).head? := by
  obtain ⟨suf, rfl⟩ := setPathsDFS_extends fuel fr path0 p hp
  exact head?_append_left _ _ _

/-- Endpoint invariant: a recorded path ends on an empty square, except
the cyclic-return paths, which end on the starting tile and have more
than three entries. -/
theorem setPathsDFS_last {b : Board} {st : Pos} {pc : Piece} :
    ∀ (fuel : Nat) (fr : Pos) (path0 p : List Pos),
      p ∈ setPathsDFS b st pc fuel fr path0 →
      getPieceAt b (p.getLastD ⟨0, 0⟩) = none ∨
        (p.getLastD ⟨0, 0⟩ = st ∧ 3 < p.length) := by
  intro fuel
  induction fuel with
  | zero => intro fr path0 p hp; simp [setPathsDFS] at hp
  | succ n ih =>
    intro fr path0 p hp
    rcases mem_setPathsDFS_succ hp with
      ⟨-, l, -, hm⟩ | ⟨-, l, -, ⟨-, hm⟩ | ⟨-, hlst, hlen, rfl⟩⟩ |
      ⟨-, e, -, -, hm⟩ | ⟨hocc, rfl⟩
    · exact ih _ _ _ hm
    · exact ih _ _ _ hm
    · right
      rw [List.getLastD_concat]
      refine ⟨hlst, ?_⟩
      rw [List.length_append]
      simp only [List.length_singleton]
      omega
    · exact ih _ _ _ hm
    · left
      rw [List.getLastD_concat]
      exact occ_false_iff.1 hocc

/-- Distinctness invariant: a recorded path repeats no square, except the
cyclic-return paths, which close back on the starting tile while all
their other squares stay pairwise distinct. -/
theorem setPathsDFS_nodup {b : Board} {st : Pos} {pc : Piece} :
    ∀ (fuel : Nat) (fr : Pos) (path0 p : List Pos),
      (path0 ++ [fr]).Nodup → (path0 ++ [fr]).head? = some st →
      p ∈ setPathsDFS b st pc fuel fr path0 →
      p.Nodup ∨
        (p.head? = some st ∧ p.getLastD ⟨0, 0⟩ = st ∧ p.dropLast.Nodup) := by
  intro fuel
  induction fuel with
  | zero => intro fr path0 p _ _ hp; simp [setPathsDFS] at hp
  | succ n ih =>
    intro fr path0 p hnd hhd hp
    rcases mem_setPathsDFS_succ hp with
      ⟨hfm, l, hl, hm⟩ | ⟨-, l, -, ⟨hnin, hm⟩ | ⟨-, hlst, -, rfl⟩⟩ |
      ⟨-, e, -, hnin, hm⟩ | ⟨-, rfl⟩
    · have hne : l ≠ fr := landing_ne hl
      have hpath : path0 = [] := by
        unfold isFirstMove at hfm
        rw [beq_iff_eq, List.length_append, List.length_singleton] at hfm
        exact List.length_eq_zero.1 (by omega)
      subst hpath
      refine ih l ([] ++ [fr]) p ?_ ?_ hm
      · simp only [List.nil_append]
        exact nodup_concat_of (List.nodup_singleton fr) (by simpa using hne)
      · simpa using hhd
    · refine ih l (path0 ++ [fr]) p (nodup_concat_of hnd hnin) ?_ hm
      rw [head?_append_left]
      exact hhd
    · right
      rw [head?_append_left, List.getLastD_concat, List.dropLast_concat]
      exact ⟨hhd, hlst, hnd⟩
    · refine ih e (path0 ++ [fr]) p (nodup_concat_of hnd hnin) ?_ hm
      rw [head?_append_left]
      exact hhd
    · exact Or.inl hnd

/-! ### Claim C1 -/

/-- C1: for every call setPathsDFS(source, source, piece) on a board
where the source square holds the piece, every recorded path has the
source as its first element, and its last element is unoccupied, except
in the cyclic-return case where the last element equals the source and
the path accumulated before appending the source had more than two
entries (so the recorded path has more than three). -/
theorem claim_C1_dfs_endpoints (b : Board) (source : Pos) (pc : Piece)
    (fuel : Nat) (_hocc : getPieceAt b source = some pc) :
    ∀ p ∈ setPathsDFS b source pc fuel source [],
      p.head? = some source ∧
      (getPieceAt b (p.getLastD ⟨0, 0⟩) = none ∨
        (p.getLastD ⟨0, 0⟩ = source ∧ 3 < p.length)) := by
  intro p hp
  exact ⟨by rw [setPathsDFS_head hp]; rfl, setPathsDFS_last fuel source [] p hp⟩

def witnessPawnBoard : Board :=
  (List.replicate 64 (none : Option Piece)).set 16
    (some ⟨Player.blue, PieceType.pawn⟩)

theorem claim_C1_dfs_endpoints_witness :
    getPieceAt witnessPawnBoard ⟨2, 0⟩ = some ⟨Player.blue, PieceType.pawn⟩ ∧
    ([⟨2, 0⟩, ⟨3, 1⟩] : List Pos) ∈
      setPathsDFS witnessPawnBoard ⟨2, 0⟩ ⟨Player.blue, PieceType.pawn⟩ 5
        ⟨2, 0⟩ [] ∧
    (([⟨2, 0⟩, ⟨3, 1⟩] : List Pos).head? = some ⟨2, 0⟩ ∧
      (getPieceAt witnessPawnBoard
          (([⟨2, 0⟩, ⟨3, 1⟩] : List Pos).getLastD ⟨0, 0⟩) = none ∨
        (([⟨2, 0⟩, ⟨3, 1⟩] : List Pos).getLastD ⟨0, 0⟩ = ⟨2, 0⟩ ∧
          3 < ([⟨2, 0⟩, ⟨3, 1⟩] : List Pos).length))) :=
  ⟨by decide, by decide,
    claim_C1_dfs_endpoints witnessPawnBoard ⟨2, 0⟩ ⟨Player.blue, PieceType.pawn⟩
      5 (by decide) [⟨2, 0⟩, ⟨3, 1⟩] (by decide)⟩

/-! ### Claim C2 -/

/-- C2: no square appears twice in a recorded path, with the single
exception of the cyclic-return paths, whose last element equals the first
(the source); in those paths all squares other than the final one are
still pairwise distinct. -/
theorem claim_C2_dfs_no_revisit (b : Board) (source : Pos) (pc : Piece)
    (fuel : Nat) :
    ∀ p ∈ setPathsDFS b source pc fuel source [],
      p.Nodup ∨
        (p.head? = some source ∧ p.getLastD ⟨0, 0⟩ = source ∧
          p.dropLast.Nodup) := by
  intro p hp
  exact setPathsDFS_nodup fuel source [] p (by simp) (by simp) hp

theorem claim_C2_dfs_no_revisit_witness :
    ([⟨2, 0⟩, ⟨3, 1⟩] : List Pos) ∈
      setPathsDFS witnessPawnBoard ⟨2, 0⟩ ⟨Player.blue, PieceType.pawn⟩ 5
        ⟨2, 0⟩ [] ∧
    (([⟨2, 0⟩, ⟨3, 1⟩] : List Pos).Nodup ∨
      (([⟨2, 0⟩, ⟨3, 1⟩] : List Pos).head? = some ⟨2, 0⟩ ∧
        ([⟨2, 0⟩, ⟨3, 1⟩] : List Pos).getLastD ⟨0, 0⟩ = ⟨2, 0⟩ ∧
        ([⟨2, 0⟩, ⟨3, 1⟩] : List Pos).dropLast.Nodup)) :=
  ⟨by decide,
    claim_C2_dfs_no_revisit witnessPawnBoard ⟨2, 0⟩ ⟨Player.blue, PieceType.pawn⟩
      5 [⟨2, 0⟩, ⟨3, 1⟩] (by decide)⟩

/-! ### Claim C3: captures continue straight -/

/-- One window of the straightness check: when the middle square is
occupied, the step out of it repeats the step into it. -/
def stepOK (b : Board) (a x y : Pos) : Bool :=
  !isTileOcuppied b x ||
  (decide (y.col - x.col = x.col - a.col) &&
   decide (y.row - x.row = x.row - a.row))

/-- Straightness of a whole path: every occupied interior square is
crossed in a straight line. -/
def StraightB (b : Board) : List Pos → Bool
  | a :: x :: y :: rest => stepOK b a x y && StraightB b (x :: y :: rest)
  | _ => true

theorem StraightB_cons_cons {b : Board} (a c : Pos) (w : List Pos)
    (hw : w ≠ []) :
    StraightB b (a :: c :: w) =
      (stepOK b a c (w.headD ⟨0, 0⟩) && StraightB b (c :: w)) := by
  cases w with
  | nil => exact absurd rfl hw
  | cons d w2 => rfl

theorem straightB_concat {b : Board} :
    ∀ (l : List Pos) (u z x : Pos),
      StraightB b (l ++ [u, z, x]) =
        (StraightB b (l ++ [u, z]) && stepOK b u z x) := by
  intro l
  induction l with
  | nil => intro u z x; simp [StraightB]
  | cons a t ih =>
    intro u z x
    cases t with
    | nil => simp [StraightB, Bool.and_assoc]
    | cons c l2 =>
      have hne1 : l2 ++ [u, z, x] ≠ [] := by simp
      have hne2 : l2 ++ [u, z] ≠ [] := by simp
      have hh : (l2 ++ [u, z, x]).headD (⟨0, 0⟩ : Pos) =
          (l2 ++ [u, z]).headD ⟨0, 0⟩ := by cases l2 <;> rfl
      calc StraightB b ((a :: c :: l2) ++ [u, z, x])
          = StraightB b (a :: c :: (l2 ++ [u, z, x])) := by simp
        _ = (stepOK b a c ((l2 ++ [u, z, x]).headD ⟨0, 0⟩) &&
              StraightB b (c :: (l2 ++ [u, z, x]))) :=
            StraightB_cons_cons a c _ hne1
        _ = (stepOK b a c ((l2 ++ [u, z, x]).headD ⟨0, 0⟩) &&
              (StraightB b ((c :: l2) ++ [u, z]) && stepOK b u z x)) := by
            rw [show c :: (l2 ++ [u, z, x]) = (c :: l2) ++ [u, z, x] from rfl,
              ih u z x]
        _ = ((stepOK b a c ((l2 ++ [u, z]).headD ⟨0, 0⟩) &&
              StraightB b (c :: (l2 ++ [u, z]))) && stepOK b u z x) := by
            rw [hh, Bool.and_assoc]; rfl
        _ = (StraightB b (a :: c :: (l2 ++ [u, z])) && stepOK b u z x) := by
            rw [StraightB_cons_cons a c _ hne2]
        _ = (StraightB b ((a :: c :: l2) ++ [u, z]) && stepOK b u z x) := by simp

theorem straightB_indexed {b : Board} :
    ∀ (p : List Pos), StraightB b p = true →
      ∀ k : Nat, k + 2 < p.length →
      isTileOcuppied b (p.getD (k + 1) ⟨0, 0⟩) = true →
      ((p.getD (k + 2) ⟨0, 0⟩).col - (p.getD (k + 1) ⟨0, 0⟩).col
          = (p.getD (k + 1) ⟨0, 0⟩).col - (p.getD k ⟨0, 0⟩).col ∧
        (p.getD (k + 2) ⟨0, 0⟩).row - (p.getD (k + 1) ⟨0, 0⟩).row
          = (p.getD (k + 1) ⟨0, 0⟩).row - (p.getD k ⟨0, 0⟩).row) := by
  intro p
  induction p with
  | nil => intro _ k hk _; simp at hk
  | cons a t ih =>
    intro hs k hk ho
    cases t with
    | nil => simp at hk
    | cons x t2 =>
      cases t2 with
      | nil => simp at hk
      | cons y rest =>
        have hs' : stepOK b a x y = true ∧
            StraightB b (x :: y :: rest) = true := by
          have heq : StraightB b (a :: x :: y :: rest) =
              (stepOK b a x y && StraightB b (x :: y :: rest)) := rfl
          rw [heq, Bool.and_eq_true] at hs
          exact hs
        cases k with
        | zero =>
          simp only [List.getD_cons_succ, List.getD_cons_zero] at ho ⊢
          have hstep := hs'.1
          unfold stepOK at hstep
          rw [ho] at hstep
          simpa using hstep
        | succ k2 =>
          have hlen : k2 + 2 < (x :: y :: rest).length := by
            simp at hk ⊢; omega
          have := ih hs'.2 k2 hlen
            (by simpa [List.getD_cons_succ] using ho)
          simpa [List.getD_cons_succ] using this

theorem pathXDirection_concat₂ (dl : List Pos) (u fr : Pos) :
    pathXDirection (dl ++ [u, fr]) = some (fr.col - u.col) := by
  unfold pathXDirection
  have hlen : (dl ++ [u, fr]).length = dl.length + 2 := by simp
  have h1 : (dl ++ [u, fr])[(dl ++ [u, fr]).length - 2]? = some u := by
    rw [hlen]
    have : dl.length + 2 - 2 = dl.length := by omega
    rw [this, List.getElem?_append_right (by omega)]
    simp
  have h2 : (dl ++ [u, fr])[(dl ++ [u, fr]).length - 1]? = some fr := by
    rw [hlen]
    have : dl.length + 2 - 1 = dl.length + 1 := by omega
    rw [this, List.getElem?_append_right (by omega)]
    have : dl.length + 1 - dl.length = 1 := by omega
    rw [this]
    simp
  rw [h1, h2]
  rfl

theorem pathYDirection_concat₂ (dl : List Pos) (u fr : Pos) :
    pathYDirection (dl ++ [u, fr]) = some (fr.row - u.row) := by
  unfold pathYDirection
  have hlen : (dl ++ [u, fr]).length = dl.length + 2 := by simp
  have h1 : (dl ++ [u, fr])[(dl ++ [u, fr]).length - 2]? = some u := by
    rw [hlen]
    have : dl.length + 2 - 2 = dl.length := by omega
    rw [this, List.getElem?_append_right (by omega)]
    simp
  have h2 : (dl ++ [u, fr])[(dl ++ [u, fr]).length - 1]? = some fr := by
    rw [hlen]
    have : dl.length + 2 - 1 = dl.length + 1 := by omega
    rw [this, List.getElem?_append_right (by omega)]
    have : dl.length + 1 - dl.length = 1 := by omega
    rw [this]
    simp
  rw [h1, h2]
  rfl

/-- Extending a path over an occupied square with a direction-filtered
landing keeps it straight. -/
theorem straight_extend_capture {b : Board} {st fr : Pos} {pc : Piece}
    {path0 : List Pos} {l : Pos}
    (hst : StraightB b (path0 ++ [fr]) = true)
    (hcap : isPotentialCapture b fr (path0 ++ [fr]) = true)
    (hl : l ∈ getAdjacentLandings b st fr pc
        (pathXDirection (path0 ++ [fr])) (pathYDirection (path0 ++ [fr]))) :
    StraightB b ((path0 ++ [fr]) ++ [l]) = true := by
  unfold isPotentialCapture at hcap
  rw [Bool.and_eq_true, decide_eq_true_eq] at hcap
  obtain ⟨hocc, hlen⟩ := hcap
  have h0 : path0 ≠ [] := by
    intro h; subst h; simp at hlen
  obtain ⟨dl, u, rfl⟩ : ∃ dl u, path0 = dl ++ [u] :=
    ⟨path0.dropLast, path0.getLast h0, (List.dropLast_concat_getLast h0).symm⟩
  have hsplit : (dl ++ [u]) ++ [fr] = dl ++ [u, fr] := by simp
  rw [hsplit] at hst hl ⊢
  rw [show (dl ++ [u, fr]) ++ [l] = dl ++ [u, fr, l] by simp,
    straightB_concat, hst, Bool.true_and]
  rw [pathXDirection_concat₂, pathYDirection_concat₂] at hl
  obtain ⟨d, hd, hleq, -, -, hx, hy⟩ := mem_getAdjacentLandings hl
  have hdx : d.1 = fr.col - u.col := hx _ rfl
  have hdy : d.2 = fr.row - u.row := hy _ rfl
  have hc : l.col - fr.col = fr.col - u.col := by rw [hleq]; dsimp; omega
  have hr : l.row - fr.row = fr.row - u.row := by rw [hleq]; dsimp; omega
  unfold stepOK
  rw [hc, hr]
  simp

/-- The straightness invariant is preserved by the DFS: every recorded
path crosses occupied squares in a straight line. -/
theorem setPathsDFS_straight {b : Board} {st : Pos} {pc : Piece} :
    ∀ (fuel : Nat) (fr : Pos) (path0 p : List Pos),
      StraightB b (path0 ++ [fr]) = true →
      p ∈ setPathsDFS b st pc fuel fr path0 →
      StraightB b p = true := by
  intro fuel
  induction fuel with
  | zero => intro fr path0 p _ hp; simp [setPathsDFS] at hp
  | succ n ih =>
    intro fr path0 p hst hp
    rcases mem_setPathsDFS_succ hp with
      ⟨hfm, l, hl, hm⟩ | ⟨hcap, l, hl, ⟨-, hm⟩ | ⟨-, -, -, rfl⟩⟩ |
      ⟨hlook, e, he, -, hm⟩ | ⟨-, rfl⟩
    · have hpath : path0 = [] := by
        unfold isFirstMove at hfm
        rw [beq_iff_eq, List.length_append, List.length_singleton] at hfm
        exact List.length_eq_zero.1 (by omega)
      subst hpath
      exact ih l ([] ++ [fr]) p (by rfl) hm
    · exact ih l (path0 ++ [fr]) p (straight_extend_capture hst hcap hl) hm
    · exact straight_extend_capture hst hcap hl
    · unfold canLookForEnemies at hlook
      simp only [Bool.or_eq_true, Bool.and_eq_true] at hlook
      rcases hlook with ⟨hocc, hlen⟩ | ⟨-, hlen⟩
      · rw [decide_eq_true_eq] at hlen
        have h0 : path0 ≠ [] := by
          intro h; subst h; simp at hlen
        obtain ⟨dl, u, rfl⟩ : ∃ dl u, path0 = dl ++ [u] :=
          ⟨path0.dropLast, path0.getLast h0, (List.dropLast_concat_getLast h0).symm⟩
        have hsplit : (dl ++ [u]) ++ [fr] = dl ++ [u, fr] := by simp
        refine ih e ((dl ++ [u]) ++ [fr]) p ?_ hm
        rw [hsplit] at hst ⊢
        rw [show (dl ++ [u, fr]) ++ [e] = dl ++ [u, fr, e] by simp,
          straightB_concat, hst, Bool.true_and]
        unfold stepOK
        rw [Bool.not_eq_true'] at hocc
        rw [hocc]
        rfl
      · rw [decide_eq_true_eq, List.length_append, List.length_singleton] at hlen
        have hpath : path0 = [] := List.length_eq_zero.1 (by omega)
        subst hpath
        exact ih e ([] ++ [fr]) p (by rfl) hm
    · exact hst

/-- C3: in every recorded path each capture continues straight: whenever
the entry at a position i of the path, i at least 1, is occupied and the
path has a landing entry at position i+1, that landing lies in exactly
the same column and row direction as the step from position i-1 to
position i. -/
theorem claim_C3_capture_direction (b : Board) (source : Pos) (pc : Piece)
    (fuel : Nat) :
    ∀ p ∈ setPathsDFS b source pc fuel source [],
      ∀ i : Nat, 1 ≤ i → i + 1 < p.length →
      isTileOcuppied b (p.getD i ⟨0, 0⟩) = true →
      ((p.getD (i + 1) ⟨0, 0⟩).col - (p.getD i ⟨0, 0⟩).col
          = (p.getD i ⟨0, 0⟩).col - (p.getD (i - 1) ⟨0, 0⟩).col ∧
       (p.getD (i + 1) ⟨0, 0⟩).row - (p.getD i ⟨0, 0⟩).row
          = (p.getD i ⟨0, 0⟩).row - (p.getD (i - 1) ⟨0, 0⟩).row) := by
  intro p hp i h1 h2 ho
  have hsb : StraightB b p = true :=
    setPathsDFS_straight fuel source [] p (by rfl) hp
  obtain ⟨k, rfl⟩ : ∃ k, i = k + 1 := ⟨i - 1, by omega⟩
  have hidx := straightB_indexed p hsb k (by omega) ho
  exact hidx

def witnessCaptureBoard : Board :=
  ((List.replicate 64 (none : Option Piece)).set 16
    (some ⟨Player.blue, PieceType.pawn⟩)).set 25
    (some ⟨Player.red, PieceType.pawn⟩)

theorem claim_C3_capture_direction_witness :
    ([⟨2, 0⟩, ⟨3, 1⟩, ⟨4, 2⟩] : List Pos) ∈
      setPathsDFS witnessCaptureBoard ⟨2, 0⟩ ⟨Player.blue, PieceType.pawn⟩ 5
        ⟨2, 0⟩ [] ∧
    isTileOcuppied witnessCaptureBoard
      (([⟨2, 0⟩, ⟨3, 1⟩, ⟨4, 2⟩] : List Pos).getD 1 ⟨0, 0⟩) = true ∧
    ((([⟨2, 0⟩, ⟨3, 1⟩, ⟨4, 2⟩] : List Pos).getD 2 ⟨0, 0⟩).col -
        (([⟨2, 0⟩, ⟨3, 1⟩, ⟨4, 2⟩] : List Pos).getD 1 ⟨0, 0⟩).col
      = (([⟨2, 0⟩, ⟨3, 1⟩, ⟨4, 2⟩] : List Pos).getD 1 ⟨0, 0⟩).col -
        (([⟨2, 0⟩, ⟨3, 1⟩, ⟨4, 2⟩] : List Pos).getD 0 ⟨0, 0⟩).col ∧
     (([⟨2, 0⟩, ⟨3, 1⟩, ⟨4, 2⟩] : List Pos).getD 2 ⟨0, 0⟩).row -
        (([⟨2, 0⟩, ⟨3, 1⟩, ⟨4, 2⟩] : List Pos).getD 1 ⟨0, 0⟩).row
      = (([⟨2, 0⟩, ⟨3, 1⟩, ⟨4, 2⟩] : List Pos).getD 1 ⟨0, 0⟩).row -
        (([⟨2, 0⟩, ⟨3, 1⟩, ⟨4, 2⟩] : List Pos).getD 0 ⟨0, 0⟩).row) := by
  refine ⟨by decide, by decide, ?_⟩
  have := claim_C3_capture_direction witnessCaptureBoard ⟨2, 0⟩
    ⟨Player.blue, PieceType.pawn⟩ 5 [⟨2, 0⟩, ⟨3, 1⟩, ⟨4, 2⟩] (by decide) 1
    (by decide) (by decide) (by decide)
  exact this

/-! ### Claim C4: forced captures in the bonus game -/

theorem mem_allTiles {p : Pos} : p ∈ allTiles ↔ p.inB = true := by
  constructor
  · intro hp
    unfold allTiles at hp
    rw [List.mem_map] at hp
    obtain ⟨i, hi, rfl⟩ := hp
    rw [List.mem_range] at hi
    unfold posOfIndex Pos.inB inBounds
    simp only [Bool.and_eq_true, decide_eq_true_eq]
    omega
  · intro hp
    rcases p with ⟨r, c⟩
    unfold Pos.inB inBounds at hp
    simp only [Bool.and_eq_true, decide_eq_true_eq] at hp
    unfold allTiles
    rw [List.mem_map]
    refine ⟨(r * 8 + c).toNat, ?_, ?_⟩
    · rw [List.mem_range]; omega
    · unfold posOfIndex
      simp only [Pos.mk.injEq]
      constructor <;> omega

theorem getPieceAt_some_inB {b : Board} {p : Pos} {pc : Piece}
    (h : getPieceAt b p = some pc) : p.inB = true := by
  unfold getPieceAt at h
  split at h
  · assumption
  · cases h

theorem belongs_inB {b : Board} {p : Pos} {player : Player}
    (h : tileBelongsToPlayer b p player = true) : p.inB = true := by
  unfold tileBelongsToPlayer at h
  rcases hg : getPieceAt b p with _ | pc
  · rw [hg] at h; cases h
  · exact getPieceAt_some_inB hg

/-- After one simple step onto an empty adjacent square the DFS records
exactly the two-entry path and stops. -/
theorem setPathsDFS_two_mem {b : Board} {st : Pos} {pc : Piece}
    {fuel : Nat} {l : Pos} {p : List Pos}
    (hol : isTileOcuppied b l = false) (hne : l ≠ st)
    (hp : p ∈ setPathsDFS b st pc fuel l [st]) : p = [st, l] := by
  cases fuel with
  | zero => simp [setPathsDFS] at hp
  | succ n =>
    rcases mem_setPathsDFS_succ hp with
      ⟨hfm, -, -, -⟩ | ⟨hcap, -, -, -⟩ | ⟨hlook, -, -, -, -⟩ | ⟨-, rfl⟩
    · simp [isFirstMove] at hfm
    · simp [isPotentialCapture, hol] at hcap
    · simp [canLookForEnemies, hol, hne] at hlook
    · rfl

/-- In a recorded path of more than two entries the second entry is an
adjacent enemy of the moving piece. -/
theorem setPathsDFS_top_entry1 {b : Board} {st : Pos} {pc : Piece}
    {fuel : Nat} {p : List Pos} (hos : getPieceAt b st = some pc)
    (hp : p ∈ setPathsDFS b st pc fuel st []) (hlen : 2 < p.length) :
    isTileOcuppied b (p.getD 1 ⟨0, 0⟩) = true ∧
      tileBelongsToPlayer b (p.getD 1 ⟨0, 0⟩) pc.owner = false := by
  cases fuel with
  | zero => simp [setPathsDFS] at hp
  | succ n =>
    have hocc : isTileOcuppied b st = true := by
      simp [isTileOcuppied, hos]
    rcases mem_setPathsDFS_succ hp with
      ⟨-, l, hl, hm⟩ | ⟨hcap, -, -, -⟩ | ⟨-, e, he, -, hm⟩ | ⟨hoccf, -⟩
    · have hne : l ≠ st := landing_ne hl
      have hol : isTileOcuppied b l = false := by
        obtain ⟨-, -, -, -, hor, -, -⟩ := mem_getAdjacentLandings hl
        rcases hor with h | h
        · exact h
        · exact absurd h hne
      have hp2 : p = [st, l] := setPathsDFS_two_mem hol hne (by simpa using hm)
      rw [hp2] at hlen
      simp at hlen
    · simp [isPotentialCapture] at hcap
    · obtain ⟨suf, hps⟩ := setPathsDFS_extends n e ([] ++ [st]) p hm
      obtain ⟨-, -, -, -, hoe, hbe⟩ := mem_getAdjacentEnemies he
      have hg : p.getD 1 ⟨0, 0⟩ = e := by
        rw [hps]
        simp
      rw [hg]
      exact ⟨hoe, hbe⟩
    · rw [hoccf] at hocc
      cases hocc

/-- A recorded path of at most two entries captures nothing. -/
theorem getCapturesForPath_nil_of_short {b : Board} {st : Pos} {pc : Piece}
    {player : Player} {fuel : Nat} {p : List Pos}
    (hos : getPieceAt b st = some pc) (how : pc.owner = player)
    (hp : p ∈ setPathsDFS b st pc fuel st []) (hlen : p.length ≤ 2) :
    getCapturesForPath b p player = [] := by
  have hlast := setPathsDFS_last fuel st [] p hp
  obtain ⟨suf, rfl⟩ := setPathsDFS_extends fuel st [] p hp
  cases suf with
  | nil =>
    have hlast2 : getPieceAt b st = none ∨
        ((st : Pos) = st ∧ 3 < (([] : List Pos) ++ [st] ++ []).length) := hlast
    rcases hlast2 with h | ⟨-, h⟩
    · rw [hos] at h; cases h
    · simp at h
  | cons x suf2 =>
    cases suf2 with
    | nil =>
      have hgl : (([] ++ [st]) ++ [x]).getLastD (⟨0, 0⟩ : Pos) = x := by simp
      rw [hgl] at hlast
      have hoccx : getPieceAt b x = none := by
        rcases hlast with h | ⟨-, h⟩
        · exact h
        · simp at h
      unfold getCapturesForPath
      have hfst : (isTileOcuppied b st && !tileBelongsToPlayer b st player)
          = false := by
        unfold tileBelongsToPlayer
        rw [hos]
        simp [how]
      have hfx : (isTileOcuppied b x && !tileBelongsToPlayer b x player)
          = false := by
        unfold isTileOcuppied
        rw [hoccx]
        simp
      simp only [List.nil_append, List.cons_append, List.singleton_append]
      rw [List.filter_cons, List.filter_cons]
      simp [hfst, hfx]
    | cons y suf3 =>
      simp at hlen

theorem bool_eq_of_iff {a b : Bool} (h : a = true ↔ b = true) : a = b := by
  cases a <;> cases b <;> simp_all

/-- Paths the DFS generates for the piece standing on a tile. -/
def piecePaths (b : Board) (f : Pos) : List (List Pos) :=
  match getPieceAt b f with
  | some pc => setPathsDFS b f pc FUEL f []
  | none => []

/-- The tile holds a piece of the player that has a capturing path (a
path of length greater than two). -/
def hasCapturePath (b : Board) (player : Player) (f : Pos) : Bool :=
  tileBelongsToPlayer b f player &&
  (piecePaths b f).any (fun p => decide (2 < p.length))

/-- Some piece of the player has a capturing path. -/
def capturingExists (b : Board) (player : Player) : Bool :=
  allTiles.any (fun f => hasCapturePath b player f)

/-- The validDestinations computed for the piece standing on a tile. -/
def pieceDestinations (v : Variant) (b : Board) (player : Player) (f : Pos) :
    List ValidDestination :=
  match getPieceAt b f with
  | some pc => simulateValidDestinations v b player f pc
  | none => []

theorem simulate_bonus_eq (b : Board) (player : Player) (f : Pos)
    (pc : Piece) :
    simulateValidDestinations .bonus b player f pc =
      (if (setPathsDFS b f pc FUEL f []).any (fun p => decide (2 < p.length))
       then (setPathsDFS b f pc FUEL f []).filter
         (fun p => decide (2 < p.length))
       else setPathsDFS b f pc FUEL f []).map
        (mkValidDestination b player) := by
  unfold simulateValidDestinations setValidDestinationsMove
  simp

/-- For a player's piece, some computed destination carries captures
exactly when some DFS path has length greater than two. -/
theorem bonus_captures_iff {b : Board} {player : Player} {f : Pos}
    {pc : Piece} (hf : getPieceAt b f = some pc) (how : pc.owner = player) :
    ((simulateValidDestinations .bonus b player f pc).any
        (fun vd => !vd.captures.isEmpty) = true) ↔
      ((setPathsDFS b f pc FUEL f []).any
        (fun p => decide (2 < p.length)) = true) := by
  rw [simulate_bonus_eq]
  constructor
  · intro h
    rw [List.any_eq_true] at h
    obtain ⟨vd, hvd, hcap⟩ := h
    rw [List.mem_map] at hvd
    obtain ⟨p, hp, rfl⟩ := hvd
    by_contra hc
    rw [if_neg hc] at hp
    rw [List.any_eq_true] at hc
    push_neg at hc
    have hshort : p.length ≤ 2 := by
      have h2 := hc p hp
      simp only [ne_eq, decide_eq_true_eq] at h2
      omega
    have hnilcap := getCapturesForPath_nil_of_short hf how hp hshort
    have hcap2 : (!(getCapturesForPath b p player).isEmpty) = true := hcap
    rw [hnilcap] at hcap2
    simp at hcap2
  · intro h
    rw [if_pos h]
    rw [List.any_eq_true] at h ⊢
    obtain ⟨p, hp, hlong⟩ := h
    rw [decide_eq_true_eq] at hlong
    refine ⟨mkValidDestination b player p, ?_, ?_⟩
    · rw [List.mem_map]
      exact ⟨p, List.mem_filter.2 ⟨hp, by rw [decide_eq_true_eq]; exact hlong⟩,
        rfl⟩
    · obtain ⟨hocc1, hbel1⟩ := setPathsDFS_top_entry1 hf hp hlong
      have hmem1 : p.getD 1 ⟨0, 0⟩ ∈ p := by
        have h1 : 1 < p.length := by omega
        rw [List.getD_eq_getElem?_getD, List.getElem?_eq_getElem h1]
        exact List.getElem_mem h1
      have hmemc : p.getD 1 ⟨0, 0⟩ ∈ getCapturesForPath b p player := by
        unfold getCapturesForPath
        rw [List.mem_filter]
        refine ⟨hmem1, ?_⟩
        rw [hocc1, Bool.true_and, Bool.not_eq_true', ← how]
        exact hbel1
      show (!(getCapturesForPath b p player).isEmpty) = true
      rw [Bool.not_eq_true']
      cases hcaps : getCapturesForPath b p player with
      | nil => rw [hcaps] at hmemc; cases hmemc
      | cons a t => rfl

/-- BonusGame.isFromValid characterised: a tile is selectable exactly
when it belongs to the player and either holds a piece with a capturing
path (when any of the player's pieces has one) or holds a piece with at
least one destination (otherwise). -/
theorem bonusFromValid_eq (b : Board) (tile : Pos) (player : Player) :
    bonusFromValid b tile player =
      (tileBelongsToPlayer b tile player &&
        (if capturingExists b player = true then hasCapturePath b player tile
         else !(pieceDestinations .bonus b player tile).isEmpty)) := by
  by_cases hb : tileBelongsToPlayer b tile player = true
  case neg =>
    unfold bonusFromValid
    rw [Bool.not_eq_true] at hb
    rw [hb]
    simp
  case pos =>
    have hmemF : ∀ f : Pos,
        f ∈ allTiles.filter (fun p => tileBelongsToPlayer b p player) ↔
        tileBelongsToPlayer b f player = true := by
      intro f
      rw [List.mem_filter]
      constructor
      · rintro ⟨-, h⟩; exact h
      · intro h; exact ⟨mem_allTiles.2 (belongs_inB h), h⟩
    have hcapF : ∀ f ∈ allTiles.filter (fun p => tileBelongsToPlayer b p player),
        fromHasCaptures b player f = hasCapturePath b player f := by
      intro f hf
      have hbf := (hmemF f).1 hf
      rcases hpc : getPieceAt b f with _ | pc
      · unfold tileBelongsToPlayer at hbf; rw [hpc] at hbf; cases hbf
      · have how : pc.owner = player := by
          unfold tileBelongsToPlayer at hbf
          rw [hpc] at hbf
          simpa using hbf
        unfold fromHasCaptures hasCapturePath piecePaths
        rw [hpc, hbf]
        show ((simulateValidDestinations .bonus b player f pc).any
            (fun vd => !vd.captures.isEmpty)) =
          (true && (setPathsDFS b f pc FUEL f []).any
            (fun p => decide (2 < p.length)))
        rw [Bool.true_and]
        exact bool_eq_of_iff (bonus_captures_iff hpc how)
    have hdesF : ∀ f ∈ allTiles.filter (fun p => tileBelongsToPlayer b p player),
        fromHasDestinations b player f =
          !(pieceDestinations .bonus b player f).isEmpty := by
      intro f hf
      have hbf := (hmemF f).1 hf
      rcases hpc : getPieceAt b f with _ | pc
      · unfold tileBelongsToPlayer at hbf; rw [hpc] at hbf; cases hbf
      · unfold fromHasDestinations pieceDestinations
        rw [hpc]
    simp only [bonusFromValid]
    rw [if_pos hb, hb, Bool.true_and]
    rw [List.filter_congr hcapF, List.filter_congr hdesF]
    have hcapEmpty :
        ((allTiles.filter (fun p => tileBelongsToPlayer b p player)).filter
          (fun f => hasCapturePath b player f)).isEmpty =
          !capturingExists b player := by
      apply bool_eq_of_iff
      rw [List.isEmpty_iff, List.filter_eq_nil_iff, Bool.not_eq_true',
        Bool.eq_false_iff]
      unfold capturingExists
      constructor
      · intro h hc
        rw [List.any_eq_true] at hc
        obtain ⟨f, hfa, hcap⟩ := hc
        have hbf : tileBelongsToPlayer b f player = true := by
          unfold hasCapturePath at hcap
          rw [Bool.and_eq_true] at hcap
          exact hcap.1
        exact h f ((hmemF f).2 hbf) hcap
      · intro h f hfm hcap
        exact h (List.any_eq_true.2
          ⟨f, mem_allTiles.2 (belongs_inB ((hmemF f).1 hfm)), hcap⟩)
    rw [hcapEmpty]
    by_cases hce : capturingExists b player = true
    · rw [if_neg (by rw [hce]; simp), if_pos hce]
      apply bool_eq_of_iff
      rw [decide_eq_true_eq, List.mem_filter]
      constructor
      · rintro ⟨-, h⟩; exact h
      · intro h
        have hbf : tileBelongsToPlayer b tile player = true := by
          unfold hasCapturePath at h
          rw [Bool.and_eq_true] at h
          exact h.1
        exact ⟨(hmemF tile).2 hbf, h⟩
    · rw [Bool.not_eq_true] at hce
      rw [if_pos (by rw [hce]; rfl), if_neg (by rw [hce]; simp)]
      apply bool_eq_of_iff
      rw [decide_eq_true_eq, List.mem_filter]
      constructor
      · rintro ⟨-, h⟩; exact h
      · intro h
        exact ⟨(hmemF tile).2 hb, h⟩

/-- When a tile's piece has a capturing path, all its computed
destinations come from capturing paths. -/
theorem pieceDestinations_all_long {b : Board} {player : Player}
    {tile : Pos} {pc : Piece} (hpc : getPieceAt b tile = some pc)
    (hcap : hasCapturePath b player tile = true) :
    ∀ vd ∈ pieceDestinations .bonus b player tile, 2 < vd.path.length := by
  unfold pieceDestinations
  rw [hpc]
  show ∀ vd ∈ simulateValidDestinations .bonus b player tile pc,
    2 < vd.path.length
  rw [simulate_bonus_eq]
  unfold hasCapturePath piecePaths at hcap
  rw [hpc] at hcap
  rw [Bool.and_eq_true] at hcap
  have hany : (setPathsDFS b tile pc FUEL tile []).any
      (fun p => decide (2 < p.length)) = true := hcap.2
  rw [if_pos hany]
  intro vd hvd
  rw [List.mem_map] at hvd
  obtain ⟨p, hp, rfl⟩ := hvd
  rw [List.mem_filter] at hp
  have hlong := hp.2
  rw [decide_eq_true_eq] at hlong
  exact hlong

/-- When no piece of the player has a capturing path, all DFS paths of a
tile's piece are kept as destinations. -/
theorem pieceDestinations_all_kept {b : Board} {player : Player}
    {tile : Pos} {pc : Piece} (hpc : getPieceAt b tile = some pc)
    (hb : tileBelongsToPlayer b tile player = true)
    (hnc : capturingExists b player = false) :
    pieceDestinations .bonus b player tile =
      (piecePaths b tile).map (mkValidDestination b player) := by
  have htile : hasCapturePath b player tile = false := by
    by_contra hc
    rw [Bool.not_eq_false] at hc
    have hex : capturingExists b player = true :=
      List.any_eq_true.2 ⟨tile, mem_allTiles.2 (belongs_inB hb), hc⟩
    rw [hex] at hnc
    cases hnc
  have hany : (setPathsDFS b tile pc FUEL tile []).any
      (fun p => decide (2 < p.length)) = false := by
    unfold hasCapturePath piecePaths at htile
    rw [hpc, hb] at htile
    simpa using htile
  unfold pieceDestinations piecePaths
  rw [hpc]
  show simulateValidDestinations .bonus b player tile pc =
    (setPathsDFS b tile pc FUEL tile []).map (mkValidDestination b player)
  rw [simulate_bonus_eq, if_neg (by rw [hany]; simp)]

/-- C4: in the bonus (Forced) variant, isFromValid accepts exactly the
player's tiles holding a piece with a capturing path (length greater than
two) when any piece of the player has one, and exactly the player's tiles
whose piece has at least one valid destination otherwise; in the forced
case every destination computed for an accepted tile (what setFrom stores
in validDestinations) comes from a capturing path, and in the unforced
case every DFS path, including the length-2 simple steps, is kept as a
destination. -/
theorem claim_C4_forced_captures (b : Board) (player : Player) (tile : Pos) :
    bonusFromValid b tile player =
      (tileBelongsToPlayer b tile player &&
        (if capturingExists b player = true then hasCapturePath b player tile
         else !(pieceDestinations .bonus b player tile).isEmpty)) ∧
    (capturingExists b player = true → bonusFromValid b tile player = true →
      ∀ vd ∈ pieceDestinations .bonus b player tile, 2 < vd.path.length) ∧
    (capturingExists b player = false →
      tileBelongsToPlayer b tile player = true →
      pieceDestinations .bonus b player tile =
        (piecePaths b tile).map (mkValidDestination b player)) ∧
    (∀ pc : Piece, getPieceAt b tile = some pc →
      (setFromMove .bonus b player tile emptyMove).validDestinations =
        pieceDestinations .bonus b player tile) := by
  refine ⟨bonusFromValid_eq b tile player, ?_, ?_, ?_⟩
  · intro hce hv
    rw [bonusFromValid_eq b tile player, if_pos hce, Bool.and_eq_true] at hv
    obtain ⟨hb, hcap⟩ := hv
    rcases hpc : getPieceAt b tile with _ | pc
    · unfold tileBelongsToPlayer at hb
      rw [hpc] at hb
      cases hb
    · exact pieceDestinations_all_long hpc hcap
  · intro hnc hb
    rcases hpc : getPieceAt b tile with _ | pc
    · unfold tileBelongsToPlayer at hb
      rw [hpc] at hb
      cases hb
    · exact pieceDestinations_all_kept hpc hb hnc
  · intro pc hpc
    unfold setFromMove pieceDestinations simulateValidDestinations
    rw [hpc]
    rfl

def witnessForcedBoard : Board :=
  (((List.replicate 64 (none : Option Piece)).set 16
    (some ⟨Player.blue, PieceType.pawn⟩)).set 25
    (some ⟨Player.red, PieceType.pawn⟩)).set 20
    (some ⟨Player.blue, PieceType.pawn⟩)

theorem claim_C4_forced_captures_witness :
    (bonusFromValid witnessForcedBoard ⟨2, 0⟩ Player.blue =
      (tileBelongsToPlayer witnessForcedBoard ⟨2, 0⟩ Player.blue &&
        (if capturingExists witnessForcedBoard Player.blue = true
         then hasCapturePath witnessForcedBoard Player.blue ⟨2, 0⟩
         else !(pieceDestinations .bonus witnessForcedBoard Player.blue
            ⟨2, 0⟩).isEmpty))) ∧
    (capturingExists witnessForcedBoard Player.blue = true ∧
      bonusFromValid witnessForcedBoard ⟨2, 0⟩ Player.blue = true ∧
      (⟨[⟨2, 0⟩, ⟨3, 1⟩, ⟨4, 2⟩], ⟨4, 2⟩, [⟨3, 1⟩]⟩ : ValidDestination) ∈
        pieceDestinations .bonus witnessForcedBoard Player.blue ⟨2, 0⟩ ∧
      2 < (⟨[⟨2, 0⟩, ⟨3, 1⟩, ⟨4, 2⟩], ⟨4, 2⟩,
        [⟨3, 1⟩]⟩ : ValidDestination).path.length) ∧
    (capturingExists witnessPawnBoard Player.blue = false ∧
      tileBelongsToPlayer witnessPawnBoard ⟨2, 0⟩ Player.blue = true ∧
      pieceDestinations .bonus witnessPawnBoard Player.blue ⟨2, 0⟩ =
        (piecePaths witnessPawnBoard ⟨2, 0⟩).map
          (mkValidDestination witnessPawnBoard Player.blue)) := by
  refine ⟨(claim_C4_forced_captures witnessForcedBoard Player.blue ⟨2, 0⟩).1,
    ⟨by decide, by decide, by decide, ?_⟩, by decide, by decide,
    (claim_C4_forced_captures witnessPawnBoard Player.blue ⟨2, 0⟩).2.2.1
      (by decide) (by decide)⟩
  exact (claim_C4_forced_captures witnessForcedBoard Player.blue ⟨2, 0⟩).2.1
    (by decide) (by decide)
    ⟨[⟨2, 0⟩, ⟨3, 1⟩, ⟨4, 2⟩], ⟨4, 2⟩, [⟨3, 1⟩]⟩ (by decide)

/-! ### Board update lemmas -/

theorem tileIndex_lt {p : Pos} (h : p.inB = true) : tileIndex p < 64 := by
  unfold Pos.inB inBounds at h
  simp only [Bool.and_eq_true, decide_eq_true_eq] at h
  unfold tileIndex
  omega

theorem tileIndex_inj {p q : Pos} (hp : p.inB = true) (hq : q.inB = true)
    (h : tileIndex p = tileIndex q) : p = q := by
  rcases p with ⟨pr, pc⟩
  rcases q with ⟨qr, qc⟩
  unfold Pos.inB inBounds at hp hq
  simp only [Bool.and_eq_true, decide_eq_true_eq] at hp hq
  unfold tileIndex at h
  dsimp only at h hp hq
  simp only [Pos.mk.injEq]
  constructor <;> omega

theorem posOfIndex_inB {i : Nat} (hi : i < 64) : (posOfIndex i).inB = true := by
  unfold posOfIndex Pos.inB inBounds
  dsimp only
  simp only [Bool.and_eq_true, decide_eq_true_eq]
  omega

theorem tileIndex_posOfIndex {i : Nat} (hi : i < 64) :
    tileIndex (posOfIndex i) = i := by
  unfold posOfIndex tileIndex
  dsimp only
  omega

theorem length_setPieceAt (b : Board) (q : Pos) (v : Option Piece) :
    (setPieceAt b q v).length = b.length := by
  unfold setPieceAt
  exact List.length_set b (tileIndex q) v

theorem getPieceAt_setPieceAt {b : Board} {q : Pos} {v : Option Piece}
    (hb : b.length = 64) (hq : q.inB = true) (p : Pos) :
    getPieceAt (setPieceAt b q v) p = if p = q then v else getPieceAt b p := by
  unfold getPieceAt setPieceAt
  by_cases hpq : p = q
  · subst hpq
    rw [if_pos rfl, if_pos hq]
    rw [List.getD_eq_getElem?_getD,
      List.getElem?_set_self (by rw [hb]; exact tileIndex_lt hq)]
    rfl
  · rw [if_neg hpq]
    by_cases hpi : p.inB = true
    · rw [if_pos hpi, if_pos hpi]
      rw [List.getD_eq_getElem?_getD,
        List.getElem?_set_ne
          (fun hc => hpq (tileIndex_inj hpi hq hc.symm)),
        ← List.getD_eq_getElem?_getD]
    · rw [if_neg hpi, if_neg hpi]

theorem length_capture (b : Board) (caps : List Pos) :
    (capture b caps).length = b.length := by
  induction caps generalizing b with
  | nil => rfl
  | cons a t ih =>
    have hstep : capture b (a :: t) = capture (setPieceAt b a none) t := rfl
    rw [hstep, ih, length_setPieceAt]

theorem getPieceAt_capture {b : Board} {caps : List Pos}
    (hb : b.length = 64) (hcb : ∀ c ∈ caps, c.inB = true) (p : Pos) :
    getPieceAt (capture b caps) p =
      if p ∈ caps then none else getPieceAt b p := by
  induction caps generalizing b with
  | nil => simp [capture]
  | cons a t ih =>
    have hstep : capture b (a :: t) = capture (setPieceAt b a none) t := rfl
    rw [hstep]
    have hb2 : (setPieceAt b a none).length = 64 := by
      rw [length_setPieceAt]; exact hb
    rw [ih hb2 (fun c hc => hcb c (List.mem_cons_of_mem a hc))]
    by_cases hpt : p ∈ t
    · rw [if_pos hpt, if_pos (List.mem_cons_of_mem a hpt)]
    · rw [if_neg hpt,
        getPieceAt_setPieceAt hb (hcb a (List.mem_cons_self a t)) p]
      by_cases hpa : p = a
      · rw [if_pos hpa, if_pos (by rw [hpa]; exact List.mem_cons_self a t)]
      · rw [if_neg hpa, if_neg (by
          intro hc
          rcases List.mem_cons.1 hc with h | h
          · exact hpa h
          · exact hpt h)]

/-- The board a destination click is expected to produce, described
square by square: the destination gets the moving piece, the from square
is emptied, the captured squares are emptied, everything else keeps its
occupant. -/
def moveResultBoard (b : Board) (f d : Pos) (caps : List Pos) : Board :=
  (List.range 64).map (fun i =>
    if posOfIndex i = d then getPieceAt b f
    else if posOfIndex i = f then none
    else if posOfIndex i ∈ caps then none
    else getPieceAt b (posOfIndex i))

theorem getElem?_eq_getPieceAt {b : Board} (hb : b.length = 64) {i : Nat}
    (hi : i < 64) : b[i]? = some (getPieceAt b (posOfIndex i)) := by
  unfold getPieceAt
  rw [if_pos (posOfIndex_inB hi), tileIndex_posOfIndex hi,
    List.getD_eq_getElem?_getD, List.getElem?_eq_getElem (by omega)]
  rfl

/-- The board produced by capture + move + clear equals the square-wise
description. -/
theorem board_move_frame {b : Board} {f d : Pos} {caps : List Pos}
    (hb : b.length = 64) (hf : f.inB = true) (hd : d.inB = true)
    (hcb : ∀ c ∈ caps, c.inB = true) (hfc : f ∉ caps) (hdf : d ≠ f) :
    setPieceAt (setPieceAt (capture b caps) d
        (getPieceAt (capture b caps) f)) f none
      = moveResultBoard b f d caps := by
  have hb1 : (capture b caps).length = 64 := by
    rw [length_capture]; exact hb
  have hb2 : (setPieceAt (capture b caps) d
      (getPieceAt (capture b caps) f)).length = 64 := by
    rw [length_setPieceAt]; exact hb1
  have hb3 : (setPieceAt (setPieceAt (capture b caps) d
      (getPieceAt (capture b caps) f)) f none).length = 64 := by
    rw [length_setPieceAt]; exact hb2
  have hval : ∀ p : Pos, getPieceAt (setPieceAt (setPieceAt (capture b caps) d
      (getPieceAt (capture b caps) f)) f none) p =
      (if p = d then getPieceAt b f
       else if p = f then none
       else if p ∈ caps then none
       else getPieceAt b p) := by
    intro p
    rw [getPieceAt_setPieceAt hb2 hf, getPieceAt_setPieceAt hb1 hd,
      getPieceAt_capture hb hcb, getPieceAt_capture hb hcb]
    by_cases hpf : p = f
    · subst hpf
      rw [if_pos rfl, if_neg hfc, if_neg (Ne.symm hdf), if_pos rfl]
    · rw [if_neg hpf]
      by_cases hpd : p = d
      · subst hpd
        rw [if_pos rfl, if_pos rfl, if_neg hfc]
      · rw [if_neg hpd, if_neg hpd, if_neg hpf]
  apply List.ext_getElem?
  intro i
  by_cases hi : i < 64
  · rw [getElem?_eq_getPieceAt hb3 hi, hval]
    unfold moveResultBoard
    rw [List.getElem?_map, List.getElem?_range hi]
    rfl
  · rw [List.getElem?_eq_none (by rw [hb3]; omega),
      List.getElem?_eq_none (by unfold moveResultBoard; simp; omega)]

/-! ### playGame branch dispatch lemmas -/

theorem playGame_oob {v : Variant} {s : GameState} {r c : Int}
    (hrc : getTile r c = none) : playGame v s r c = (none, s) := by
  simp only [playGame, hrc]

theorem playGame_won {v : Variant} {s : GameState} {r c : Int} {d : Pos}
    (hrc : getTile r c = some d) (hw : s.winner.isSome = true) :
    playGame v s r c = (none, s) := by
  simp only [playGame, hrc, hw, if_true]

theorem playGame_promote {v : Variant} {s : GameState} {r c : Int} {d : Pos}
    (hrc : getTile r c = some d) (hw : s.winner = none)
    (hq : playerHasQueen s.board s.activePlayer = false)
    (hvq : isValidQueen s.board d s.activePlayer = true) :
    playGame v s r c = promoteQueen s r c d := by
  simp only [playGame, hrc, hw, hq, hvq, Option.isSome_none, Bool.not_false,
    Bool.false_eq_true, if_false, if_true]

theorem playGame_promote_invalid {v : Variant} {s : GameState} {r c : Int}
    {d : Pos} (hrc : getTile r c = some d) (hw : s.winner = none)
    (hq : playerHasQueen s.board s.activePlayer = false)
    (hvq : isValidQueen s.board d s.activePlayer = false) :
    playGame v s r c = (none, s) := by
  simp only [playGame, hrc, hw, hq, hvq, Option.isSome_none, Bool.not_false,
    Bool.false_eq_true, if_false, if_true]

theorem playGame_selectFrom {v : Variant} {s : GameState} {r c : Int}
    {d : Pos} (hrc : getTile r c = some d) (hw : s.winner = none)
    (hq : playerHasQueen s.board s.activePlayer = true)
    (hfrom : s.move.fromT = none)
    (hok : (isFromValidPost v s.board s.move d s.activePlayer).1 = true) :
    playGame v s r c =
      selectFrom v s r c d (isFromValidPost v s.board s.move d s.activePlayer).2 := by
  simp only [playGame, hrc, hw, hq, hfrom, hok, Option.isSome_none,
    Bool.not_false, Bool.not_true, Bool.false_eq_true, if_false, if_true]

theorem playGame_from_invalid {v : Variant} {s : GameState} {r c : Int}
    {d : Pos} (hrc : getTile r c = some d) (hw : s.winner = none)
    (hq : playerHasQueen s.board s.activePlayer = true)
    (hfrom : s.move.fromT = none)
    (hok : (isFromValidPost v s.board s.move d s.activePlayer).1 = false) :
    playGame v s r c =
      (none, { s with move := (isFromValidPost v s.board s.move d s.activePlayer).2 }) := by
  simp only [playGame, hrc, hw, hq, hfrom, hok, Option.isSome_none,
    Bool.not_false, Bool.not_true, Bool.false_eq_true, if_false, if_true]

theorem playGame_cancel {v : Variant} {s : GameState} {r c : Int} {d f : Pos}
    (hrc : getTile r c = some d) (hw : s.winner = none)
    (hq : playerHasQueen s.board s.activePlayer = true)
    (hfrom : s.move.fromT = some f) (hto : s.move.toT = none) (hfd : f = d) :
    playGame v s r c = cancelMove s r c f := by
  subst hfd
  simp only [playGame, hrc, hw, hq, hfrom, hto, Option.isSome_none,
    Option.isSome_some, Bool.not_false, Bool.not_true, Bool.false_eq_true,
    Bool.true_and, if_false, if_true, eq_self_iff_true]

theorem playGame_applyMove {v : Variant} {s : GameState} {r c : Int}
    {d f : Pos} (hrc : getTile r c = some d) (hw : s.winner = none)
    (hq : playerHasQueen s.board s.activePlayer = true)
    (hfrom : s.move.fromT = some f) (hto : s.move.toT = none) (hfd : f ≠ d)
    (htv : isToValid s.move d = true) :
    playGame v s r c = applyMove s r c d f := by
  simp only [playGame, hrc, hw, hq, hfrom, hto, htv, Option.isSome_none,
    Option.isSome_some, Bool.not_false, Bool.not_true, Bool.false_eq_true,
    Bool.true_and, if_false, if_true, eq_self_iff_true]
  rw [if_neg hfd]

theorem playGame_dest_invalid {v : Variant} {s : GameState} {r c : Int}
    {d f : Pos} (hrc : getTile r c = some d) (hw : s.winner = none)
    (hq : playerHasQueen s.board s.activePlayer = true)
    (hfrom : s.move.fromT = some f) (hto : s.move.toT = none) (hfd : f ≠ d)
    (htv : isToValid s.move d = false) :
    playGame v s r c = (none, s) := by
  simp only [playGame, hrc, hw, hq, hfrom, hto, htv, Option.isSome_none,
    Option.isSome_some, Bool.not_false, Bool.not_true, Bool.false_eq_true,
    Bool.true_and, if_false, if_true, eq_self_iff_true]
  rw [if_neg hfd]

theorem playGame_fallthrough {v : Variant} {s : GameState} {r c : Int}
    {d f t : Pos} (hrc : getTile r c = some d) (hw : s.winner = none)
    (hq : playerHasQueen s.board s.activePlayer = true)
    (hfrom : s.move.fromT = some f) (hto : s.move.toT = some t) :
    playGame v s r c = (none, s) := by
  simp only [playGame, hrc, hw, hq, hfrom, hto, Option.isSome_none,
    Option.isSome_some, Bool.not_false, Bool.not_true, Bool.false_eq_true,
    Bool.and_false, Bool.true_and, if_false, if_true]

/-! ### Claim C5: captures and the board frame of a move -/

/-- Every square of a recorded path lies on the board. -/
theorem setPathsDFS_inB {b : Board} {st : Pos} {pc : Piece} :
    ∀ (fuel : Nat) (fr : Pos) (path0 p : List Pos),
      (∀ x ∈ path0 ++ [fr], x.inB = true) →
      p ∈ setPathsDFS b st pc fuel fr path0 → ∀ x ∈ p, x.inB = true := by
  intro fuel
  induction fuel with
  | zero => intro fr path0 p _ hp; simp [setPathsDFS] at hp
  | succ n ih =>
    intro fr path0 p hinb hp
    rcases mem_setPathsDFS_succ hp with
      ⟨-, l, hl, hm⟩ | ⟨-, l, hl, ⟨-, hm⟩ | ⟨hin, -, -, rfl⟩⟩ |
      ⟨-, e, he, -, hm⟩ | ⟨-, rfl⟩
    · obtain ⟨-, -, -, hinB, -, -, -⟩ := mem_getAdjacentLandings hl
      refine ih l (path0 ++ [fr]) p ?_ hm
      intro x hx
      rcases List.mem_append.1 hx with h | h
      · exact hinb x h
      · rw [List.mem_singleton] at h; subst h; exact hinB
    · obtain ⟨-, -, -, hinB, -, -, -⟩ := mem_getAdjacentLandings hl
      refine ih l (path0 ++ [fr]) p ?_ hm
      intro x hx
      rcases List.mem_append.1 hx with h | h
      · exact hinb x h
      · rw [List.mem_singleton] at h; subst h; exact hinB
    · intro x hx
      rcases List.mem_append.1 hx with h | h
      · exact hinb x h
      · rw [List.mem_singleton] at h; subst h; exact hinb _ hin
    · obtain ⟨-, -, -, hinB, -, -⟩ := mem_getAdjacentEnemies he
      refine ih e (path0 ++ [fr]) p ?_ hm
      intro x hx
      rcases List.mem_append.1 hx with h | h
      · exact hinb x h
      · rw [List.mem_singleton] at h; subst h; exact hinB
    · exact fun x hx => hinb x hx

/-- Every destination stored by setFrom comes from a DFS path of the
selected piece, and carries exactly that path's captures. -/
theorem setFromMove_vd_mem {v : Variant} {b : Board} {player : Player}
    {f : Pos} {piece : Piece} (hpc : getPieceAt b f = some piece) :
    ∀ vd ∈ (setFromMove v b player f emptyMove).validDestinations,
      vd.path ∈ setPathsDFS b f piece FUEL f [] ∧
      vd.captures = getCapturesForPath b vd.path player := by
  intro vd hvd
  unfold setFromMove at hvd
  rw [hpc] at hvd
  cases v with
  | base =>
    have hvd2 : vd ∈ ((setPathsDFS b f piece FUEL f []).filter
        (fun path => path.length == 3 || path.length == 2)).map
        (mkValidDestination b player) := hvd
    rw [List.mem_map] at hvd2
    obtain ⟨p, hp, rfl⟩ := hvd2
    exact ⟨(List.mem_filter.1 hp).1, rfl⟩
  | bonus =>
    have hvd2 : vd ∈ (if (setPathsDFS b f piece FUEL f []).any
          (fun path => decide (2 < path.length))
        then (setPathsDFS b f piece FUEL f []).filter
          (fun path => decide (2 < path.length))
        else setPathsDFS b f piece FUEL f []).map
        (mkValidDestination b player) := hvd
    rw [List.mem_map] at hvd2
    obtain ⟨p, hp, rfl⟩ := hvd2
    refine ⟨?_, rfl⟩
    by_cases hc : (setPathsDFS b f piece FUEL f []).any
        (fun path => decide (2 < path.length)) = true
    · rw [if_pos hc] at hp
      exact (List.mem_filter.1 hp).1
    · rw [if_neg hc] at hp
      exact hp

theorem setFromMove_fromT (v : Variant) (b : Board) (player : Player)
    (f : Pos) (m : Move) : (setFromMove v b player f m).fromT = some f := by
  unfold setFromMove setValidDestinationsMove
  split
  · split <;> rfl
  · rfl

theorem setFromMove_toT (v : Variant) (b : Board) (player : Player)
    (f : Pos) : (setFromMove v b player f emptyMove).toT = none := by
  unfold setFromMove setValidDestinationsMove
  split
  · split <;> rfl
  · rfl

theorem applyMove_board (s : GameState) (r c : Int) (d f : Pos) :
    (applyMove s r c d f).2.board =
      setPieceAt (setPieceAt (capture s.board
          (getCapturesForDestination s.move d)) d
        (getPieceAt (capture s.board (getCapturesForDestination s.move d)) f))
        f none := by
  unfold applyMove
  dsimp only
  split
  · rfl
  · split <;> rfl

/-- C5: every destination stored by setFrom carries as captures exactly
the squares of its path occupied by the opposing player; and a playGame
click on such a destination produces exactly the board where those
captured squares and the from square are emptied, the destination square
receives the moving piece, and every other square keeps its occupant
(the square-by-square description moveResultBoard). -/
theorem claim_C5_captures_and_frame (v : Variant) (b : Board) (f : Pos)
    (piece : Piece) (player : Player) (st0 : GameStatus) (r c : Int)
    (d : Pos) (vd : ValidDestination)
    (hb : b.length = 64)
    (hpc : getPieceAt b f = some piece)
    (how : piece.owner = player)
    (hq : playerHasQueen b player = true)
    (hrc : getTile r c = some d)
    (hdf : d ≠ f)
    (hfind : (setFromMove v b player f emptyMove).validDestinations.find?
        (fun x => decide (x.destination = d)) = some vd) :
    (∀ vd2 ∈ (setFromMove v b player f emptyMove).validDestinations,
      vd2.captures = vd2.path.filter
        (fun t => isTileOcuppied b t && !tileBelongsToPlayer b t player)) ∧
    (playGame v ⟨b, st0, none, setFromMove v b player f emptyMove, player⟩
        r c).2.board = moveResultBoard b f d vd.captures := by
  have hvdmem := List.mem_of_find?_eq_some hfind
  obtain ⟨hpath, hcapseq⟩ := setFromMove_vd_mem hpc vd hvdmem
  refine ⟨fun vd2 hvd2 => (setFromMove_vd_mem hpc vd2 hvd2).2, ?_⟩
  have hfrom : (setFromMove v b player f emptyMove).fromT = some f :=
    setFromMove_fromT v b player f emptyMove
  have hto : (setFromMove v b player f emptyMove).toT = none :=
    setFromMove_toT v b player f
  have hfd : f ≠ d := Ne.symm hdf
  have hvp0 := List.find?_some hfind
  have hvp : decide (vd.destination = d) = true := hvp0
  have htv : isToValid (setFromMove v b player f emptyMove) d = true := by
    unfold isToValid
    rw [List.any_eq_true]
    exact ⟨vd, hvdmem, hvp⟩
  have hplay := @playGame_applyMove v
    ⟨b, st0, none, setFromMove v b player f emptyMove, player⟩ r c d f
    hrc rfl hq hfrom hto hfd htv
  rw [hplay, applyMove_board]
  have hcaps : getCapturesForDestination
      (setFromMove v b player f emptyMove) d = vd.captures := by
    unfold getCapturesForDestination
    rw [hfind]
  have hf : f.inB = true := getPieceAt_some_inB hpc
  have hd2 := getTile_eq_some hrc
  have hdin : d.inB = true := by
    rw [hd2.1]
    simpa using hd2.2
  have hpathin : ∀ x ∈ vd.path, x.inB = true := by
    refine setPathsDFS_inB FUEL f [] vd.path ?_ hpath
    intro x hx
    simp only [List.nil_append, List.mem_singleton] at hx
    subst hx
    exact hf
  have hcb : ∀ cpt ∈ vd.captures, cpt.inB = true := by
    intro cpt hcpt
    rw [hcapseq] at hcpt
    exact hpathin cpt (List.mem_filter.1 hcpt).1
  have hfc : f ∉ vd.captures := by
    rw [hcapseq]
    intro hmem
    have hcond := (List.mem_filter.1 hmem).2
    have hbel : tileBelongsToPlayer b f player = true := by
      unfold tileBelongsToPlayer
      rw [hpc]
      simp [how]
    rw [hbel] at hcond
    simp at hcond
  show setPieceAt (setPieceAt (capture b
      (getCapturesForDestination (setFromMove v b player f emptyMove) d)) d
      (getPieceAt (capture b
        (getCapturesForDestination (setFromMove v b player f emptyMove) d)) f))
      f none = moveResultBoard b f d vd.captures
  rw [hcaps]
  exact board_move_frame hb hf hdin hcb hfc hdf

def witnessGameBoard : Board :=
  witnessForcedBoard.set 0 (some ⟨Player.blue, PieceType.queen⟩)

theorem claim_C5_captures_and_frame_witness :
    ((⟨[⟨2, 0⟩, ⟨3, 1⟩, ⟨4, 2⟩], ⟨4, 2⟩, [⟨3, 1⟩]⟩ : ValidDestination) ∈
      (setFromMove .bonus witnessGameBoard Player.blue ⟨2, 0⟩
        emptyMove).validDestinations) ∧
    (⟨[⟨2, 0⟩, ⟨3, 1⟩, ⟨4, 2⟩], ⟨4, 2⟩,
        [⟨3, 1⟩]⟩ : ValidDestination).captures =
      (⟨[⟨2, 0⟩, ⟨3, 1⟩, ⟨4, 2⟩], ⟨4, 2⟩,
        [⟨3, 1⟩]⟩ : ValidDestination).path.filter
        (fun t => isTileOcuppied witnessGameBoard t &&
          !tileBelongsToPlayer witnessGameBoard t Player.blue) ∧
    (playGame .bonus ⟨witnessGameBoard, .active, none,
        setFromMove .bonus witnessGameBoard Player.blue ⟨2, 0⟩ emptyMove,
        Player.blue⟩ 4 2).2.board =
      moveResultBoard witnessGameBoard ⟨2, 0⟩ ⟨4, 2⟩ [⟨3, 1⟩] := by
  have hthm := claim_C5_captures_and_frame .bonus witnessGameBoard ⟨2, 0⟩
    ⟨Player.blue, PieceType.pawn⟩ Player.blue .active 4 2 ⟨4, 2⟩
    ⟨[⟨2, 0⟩, ⟨3, 1⟩, ⟨4, 2⟩], ⟨4, 2⟩, [⟨3, 1⟩]⟩ (by decide) (by decide)
    (by decide) (by decide) (by decide) (by decide) (by decide)
  exact ⟨by decide, hthm.1 _ (by decide), hthm.2⟩

/-! ### Claim C6: a click is ignored exactly when it changes nothing -/

theorem promoteQueen_fst (s : GameState) (r c : Int) (d : Pos) :
    (promoteQueen s r c d).1.isSome = true := rfl

theorem promoteQueen_board (s : GameState) (r c : Int) (d : Pos) :
    (promoteQueen s r c d).2.board =
      setPieceAt s.board d (some ⟨s.activePlayer, PieceType.queen⟩) := by
  unfold promoteQueen
  dsimp only
  split <;> rfl

theorem selectFrom_fst (v : Variant) (s : GameState) (r c : Int) (d : Pos)
    (m : Move) : (selectFrom v s r c d m).1.isSome = true := rfl

theorem selectFrom_move (v : Variant) (s : GameState) (r c : Int) (d : Pos)
    (m : Move) : (selectFrom v s r c d m).2.move =
      setFromMove v s.board s.activePlayer d m := rfl

theorem cancelMove_fst (s : GameState) (r c : Int) (f : Pos) :
    (cancelMove s r c f).1.isSome = true := rfl

theorem cancelMove_snd (s : GameState) (r c : Int) (f : Pos) :
    (cancelMove s r c f).2 = { s with move := emptyMove } := rfl

theorem applyMove_fst (s : GameState) (r c : Int) (d f : Pos) :
    (applyMove s r c d f).1.isSome = true := rfl

theorem applyMove_move (s : GameState) (r c : Int) (d f : Pos) :
    (applyMove s r c d f).2.move = emptyMove := rfl

/-- Promoting an idle piece of a player without a queen really changes
the board: the promoted square held a pawn, not a queen. -/
theorem promote_changes_board {b : Board} {d : Pos} {p : Player}
    (hb : b.length = 64) (hq : playerHasQueen b p = false)
    (hvq : isValidQueen b d p = true)
    (heq : setPieceAt b d (some ⟨p, PieceType.queen⟩) = b) : False := by
  have hidle : d ∈ getIdlePieceTiles b p := by
    unfold isValidQueen at hvq
    rw [List.any_eq_true] at hvq
    obtain ⟨i, hi, hieq⟩ := hvq
    rw [decide_eq_true_eq] at hieq
    subst hieq
    exact hi
  have hbel : tileBelongsToPlayer b d p = true := by
    unfold getIdlePieceTiles at hidle
    exact (List.mem_filter.1 (List.mem_filter.1 hidle).1).2
  have hdin : d.inB = true := belongs_inB hbel
  obtain ⟨pc, hpc, hown⟩ : ∃ pc, getPieceAt b d = some pc ∧ pc.owner = p := by
    unfold tileBelongsToPlayer at hbel
    rcases hg : getPieceAt b d with _ | pc
    · rw [hg] at hbel; cases hbel
    · rw [hg] at hbel
      exact ⟨pc, rfl, by simpa using hbel⟩
  have hnq : pc.type = PieceType.pawn := by
    rcases htp : pc.type
    case pawn => rfl
    case queen =>
      exfalso
      rcases hgq : getQueen b p with _ | q
      · unfold getQueen at hgq
        rw [List.find?_eq_none] at hgq
        refine hgq d (mem_allTiles.2 hdin) ?_
        rw [decide_eq_true_eq, hpc]
        rcases pc with ⟨ow, ty⟩
        dsimp only at hown htp
        rw [hown, htp]
      · unfold playerHasQueen at hq
        rw [hgq] at hq
        cases hq
  have hcontra := congrArg (fun bb => getPieceAt bb d) heq
  dsimp only at hcontra
  rw [getPieceAt_setPieceAt hb hdin, if_pos rfl, hpc] at hcontra
  have hpceq := Option.some.inj hcontra
  have htypes := congrArg Piece.type hpceq
  rw [hnq] at htypes
  cases htypes

/-- The biconditional of C6: no instruction iff the state is returned
unchanged, under the scratch-move invariant of reachable states. -/
theorem playGame_none_iff_unchanged (v : Variant) (s : GameState)
    (r c : Int) (hb : s.board.length = 64)
    (hinv : s.move.fromT = none → s.move = emptyMove) :
    (playGame v s r c).1 = none ↔ (playGame v s r c).2 = s := by
  rcases hrc : getTile r c with _ | d
  · rw [playGame_oob hrc]
    simp
  rcases hw : s.winner with _ | w
  case some =>
    rw [playGame_won hrc (by rw [hw]; rfl)]
    simp
  case none =>
  cases hq2 : playerHasQueen s.board s.activePlayer
  case false =>
    cases hvq : isValidQueen s.board d s.activePlayer
    case false =>
      rw [playGame_promote_invalid hrc hw hq2 hvq]
      simp
    case true =>
      rw [playGame_promote hrc hw hq2 hvq]
      refine iff_of_false ?_ ?_
      · intro h
        have hfst := promoteQueen_fst s r c d
        rw [h] at hfst
        cases hfst
      · intro h
        have hbd := congrArg GameState.board h
        rw [promoteQueen_board] at hbd
        exact promote_changes_board hb hq2 hvq hbd
  case true =>
  rcases hfrom : s.move.fromT with _ | f
  case none =>
    have hmv := hinv hfrom
    cases hok : (isFromValidPost v s.board s.move d s.activePlayer).1
    case false =>
      rw [playGame_from_invalid hrc hw hq2 hfrom hok]
      have hm2 : (isFromValidPost v s.board s.move d s.activePlayer).2
          = s.move := by
        unfold isFromValidPost
        by_cases hbel : tileBelongsToPlayer s.board d s.activePlayer = true
        · rw [if_pos hbel]
          exact hmv.symm
        · rw [if_neg hbel]
      rw [hm2]
      have hself : ({ s with move := s.move } : GameState) = s := rfl
      rw [hself]
      simp
    case true =>
      rw [playGame_selectFrom hrc hw hq2 hfrom hok]
      refine iff_of_false ?_ ?_
      · intro h
        have hfst := selectFrom_fst v s r c d
          (isFromValidPost v s.board s.move d s.activePlayer).2
        rw [h] at hfst
        cases hfst
      · intro h
        have hmvv := congrArg (fun st => st.move.fromT) h
        dsimp only at hmvv
        rw [selectFrom_move, setFromMove_fromT, hfrom] at hmvv
        cases hmvv
  case some =>
  rcases hto : s.move.toT with _ | t
  case some =>
    rw [playGame_fallthrough hrc hw hq2 hfrom hto]
    simp
  case none =>
  by_cases hfd : f = d
  · rw [playGame_cancel hrc hw hq2 hfrom hto hfd]
    refine iff_of_false ?_ ?_
    · intro h
      have hfst := cancelMove_fst s r c f
      rw [h] at hfst
      cases hfst
    · intro h
      have hmvv := congrArg (fun st => st.move.fromT) h
      dsimp only at hmvv
      rw [cancelMove_snd] at hmvv
      dsimp only at hmvv
      rw [hfrom] at hmvv
      have : (emptyMove.fromT : Option Pos) = some f := hmvv
      cases this
  · cases htv : isToValid s.move d
    · rw [playGame_dest_invalid hrc hw hq2 hfrom hto hfd htv]
      simp
    · rw [playGame_applyMove hrc hw hq2 hfrom hto hfd htv]
      refine iff_of_false ?_ ?_
      · intro h
        have hfst := applyMove_fst s r c d f
        rw [h] at hfst
        cases hfst
      · intro h
        have hmvv := congrArg (fun st => st.move.fromT) h
        dsimp only at hmvv
        rw [applyMove_move, hfrom] at hmvv
        cases hmvv

/-- C6: playGame returns no instruction exactly when it leaves the game
state unchanged, and each of the claim's click classes is such a no-op:
a click with row or column outside the board, a click on a tile the
player may not select (isFromValid false) while no from tile is set, and
a click on a tile that is neither the from tile nor a valid destination
while a from tile is set, all return no instruction and the identical
state; conversely every returned instruction is accompanied by a state
change.  The hypothesis is the scratch-move invariant of reachable
states: whenever no from tile is set the move scratch state is empty. -/
theorem claim_C6_none_iff_unchanged (v : Variant) (s : GameState) (r c : Int)
    (hb : s.board.length = 64)
    (hinv : s.move.fromT = none → s.move = emptyMove) :
    ((playGame v s r c).1 = none ↔ (playGame v s r c).2 = s) ∧
    (getTile r c = none → playGame v s r c = (none, s)) ∧
    (∀ d, getTile r c = some d → s.winner = none →
      playerHasQueen s.board s.activePlayer = true →
      s.move.fromT = none →
      isFromValid v s.board d s.activePlayer = false →
      playGame v s r c = (none, s)) ∧
    (∀ d f, getTile r c = some d → s.winner = none →
      playerHasQueen s.board s.activePlayer = true →
      s.move.fromT = some f → s.move.toT = none →
      f ≠ d → isToValid s.move d = false →
      playGame v s r c = (none, s)) := by
  refine ⟨playGame_none_iff_unchanged v s r c hb hinv, ?_, ?_, ?_⟩
  · intro hrc
    exact playGame_oob hrc
  · intro d hrc hw hq hfrom hfv
    have hok : (isFromValidPost v s.board s.move d s.activePlayer).1 =
        false := by
      unfold isFromValidPost
      by_cases hbel : tileBelongsToPlayer s.board d s.activePlayer = true
      · rw [if_pos hbel]
        exact hfv
      · rw [if_neg hbel]
    have hm2 : (isFromValidPost v s.board s.move d s.activePlayer).2 =
        s.move := by
      unfold isFromValidPost
      by_cases hbel : tileBelongsToPlayer s.board d s.activePlayer = true
      · rw [if_pos hbel]
        exact (hinv hfrom).symm
      · rw [if_neg hbel]
    rw [playGame_from_invalid hrc hw hq hfrom hok, hm2]
  · intro d f hrc hw hq hfrom hto hfd htv
    exact playGame_dest_invalid hrc hw hq hfrom hto hfd htv

def c6Board : Board :=
  (List.replicate 64 (none : Option Piece)).set 16
    (some ⟨Player.blue, PieceType.queen⟩)

def c6FromState : GameState :=
  ⟨c6Board, .active, none,
    setFromMove .bonus c6Board Player.blue ⟨2, 0⟩ emptyMove, Player.blue⟩

theorem claim_C6_none_iff_unchanged_witness :
    ((playGame .bonus initialState 5 1).1 = none ↔
      (playGame .bonus initialState 5 1).2 = initialState) ∧
    playGame .bonus initialState (-3) 2 = (none, initialState) ∧
    playGame .bonus initialState 5 1 = (none, initialState) ∧
    playGame .bonus c6FromState 4 0 = (none, c6FromState) := by
  refine ⟨(claim_C6_none_iff_unchanged .bonus initialState 5 1 (by decide)
      (fun _ => by decide)).1, ?_, ?_, ?_⟩
  · exact (claim_C6_none_iff_unchanged .bonus initialState (-3) 2 (by decide)
      (fun _ => by decide)).2.1 (by decide)
  · exact (claim_C6_none_iff_unchanged .bonus initialState 5 1 (by decide)
      (fun _ => by decide)).2.2.1 ⟨5, 1⟩ (by decide) (by decide) (by decide)
      (by decide) (by decide)
  · exact (claim_C6_none_iff_unchanged .bonus c6FromState 4 0 (by decide)
      (by decide)).2.2.2 ⟨4, 0⟩ ⟨2, 0⟩ (by decide) (by decide) (by decide)
      (by decide) (by decide) (by decide) (by decide)

/-! ### Claim C7: win detection and the terminal state -/

/-- The board applyMove installs, named. -/
def applyMoveBoard (s : GameState) (d f : Pos) : Board :=
  setPieceAt (setPieceAt (capture s.board
      (getCapturesForDestination s.move d)) d
    (getPieceAt (capture s.board (getCapturesForDestination s.move d)) f))
    f none

theorem applyMove_board2 (s : GameState) (r c : Int) (d f : Pos) :
    (applyMove s r c d f).2.board = applyMoveBoard s d f :=
  applyMove_board s r c d f

theorem promoteQueen_win (s : GameState) (r c : Int) (d : Pos)
    (hwin : hasPlayerWon (promoteQueen s r c d).2.board
      s.activePlayer = true) :
    (promoteQueen s r c d).2.winner = some s.activePlayer ∧
      (promoteQueen s r c d).2.status = GameStatus.inactive := by
  have hwin2 : hasPlayerWon
      (setPieceAt s.board d (some ⟨s.activePlayer, PieceType.queen⟩))
      s.activePlayer = true := by
    rw [← promoteQueen_board s r c d]
    exact hwin
  unfold promoteQueen
  dsimp only
  rw [if_pos hwin2]
  exact ⟨rfl, rfl⟩

theorem applyMove_win (s : GameState) (r c : Int) (d f : Pos)
    (hwin : hasPlayerWon (applyMove s r c d f).2.board
      s.activePlayer = true) :
    (applyMove s r c d f).2.winner = some s.activePlayer ∧
      (applyMove s r c d f).2.status = GameStatus.inactive := by
  have hwin2 : hasPlayerWon (applyMoveBoard s d f) s.activePlayer = true := by
    rw [← applyMove_board2 s r c d f]
    exact hwin
  have hwin3 : hasPlayerWon
      (setPieceAt (setPieceAt (capture s.board
          (getCapturesForDestination s.move d)) d
        (getPieceAt (capture s.board (getCapturesForDestination s.move d)) f))
        f none) s.activePlayer = true := hwin2
  unfold applyMove
  dsimp only
  rw [if_pos hwin3]
  exact ⟨rfl, rfl⟩

/-- C7: whenever a playGame call changes the board (a promotion or a
completed move) and afterwards the active player's queen stands on the
winning row (7 for blue, 0 for red), the player is set as winner and the
status becomes inactive; and once a winner is set every further playGame
call returns no instruction and leaves the state untouched. -/
theorem claim_C7_win_and_terminal (v : Variant) (s : GameState)
    (r c : Int) :
    ((playGame v s r c).2.board ≠ s.board →
      hasPlayerWon (playGame v s r c).2.board s.activePlayer = true →
      (playGame v s r c).2.winner = some s.activePlayer ∧
        (playGame v s r c).2.status = GameStatus.inactive) ∧
    (s.winner ≠ none → playGame v s r c = (none, s)) := by
  constructor
  · rcases hrc : getTile r c with _ | d
    · rw [playGame_oob hrc]
      intro hne _
      exact absurd rfl hne
    rcases hw : s.winner with _ | w
    case some =>
      rw [playGame_won hrc (by rw [hw]; rfl)]
      intro hne _
      exact absurd rfl hne
    case none =>
    cases hq2 : playerHasQueen s.board s.activePlayer
    case false =>
      cases hvq : isValidQueen s.board d s.activePlayer
      case false =>
        rw [playGame_promote_invalid hrc hw hq2 hvq]
        intro hne _
        exact absurd rfl hne
      case true =>
        rw [playGame_promote hrc hw hq2 hvq]
        intro _ hwin
        exact promoteQueen_win s r c d hwin
    case true =>
    rcases hfrom : s.move.fromT with _ | f
    case none =>
      cases hok : (isFromValidPost v s.board s.move d s.activePlayer).1
      case false =>
        rw [playGame_from_invalid hrc hw hq2 hfrom hok]
        intro hne _
        exact absurd rfl hne
      case true =>
        rw [playGame_selectFrom hrc hw hq2 hfrom hok]
        intro hne _
        exact absurd rfl hne
    case some =>
    rcases hto : s.move.toT with _ | t
    case some =>
      rw [playGame_fallthrough hrc hw hq2 hfrom hto]
      intro hne _
      exact absurd rfl hne
    case none =>
    by_cases hfd : f = d
    · rw [playGame_cancel hrc hw hq2 hfrom hto hfd]
      intro hne _
      exact absurd rfl hne
    · cases htv : isToValid s.move d
      · rw [playGame_dest_invalid hrc hw hq2 hfrom hto hfd htv]
        intro hne _
        exact absurd rfl hne
      · rw [playGame_applyMove hrc hw hq2 hfrom hto hfd htv]
        intro _ hwin
        exact applyMove_win s r c d f hwin
  · intro hwn
    rcases hrc : getTile r c with _ | d
    · exact playGame_oob hrc
    · rcases hw : s.winner with _ | w
      · exact absurd hw hwn
      · exact playGame_won hrc (by rw [hw]; rfl)

def winBoardW : Board :=
  (List.replicate 64 (none : Option Piece)).set 50
    (some ⟨Player.blue, PieceType.queen⟩)

def winStateW : GameState :=
  ⟨winBoardW, .active, none,
    setFromMove .bonus winBoardW Player.blue ⟨6, 2⟩ emptyMove, Player.blue⟩

def wonStateW : GameState :=
  ⟨winBoardW, .inactive, some Player.red, emptyMove, Player.blue⟩

theorem claim_C7_win_and_terminal_witness :
    ((playGame .bonus winStateW 7 3).2.board ≠ winStateW.board) ∧
    (hasPlayerWon (playGame .bonus winStateW 7 3).2.board
      Player.blue = true) ∧
    ((playGame .bonus winStateW 7 3).2.winner = some Player.blue ∧
      (playGame .bonus winStateW 7 3).2.status = GameStatus.inactive) ∧
    (wonStateW.winner ≠ none ∧
      playGame .bonus wonStateW 0 0 = (none, wonStateW)) := by
  refine ⟨by decide, by decide, ?_, by decide, ?_⟩
  · exact (claim_C7_win_and_terminal .bonus winStateW 7 3).1 (by decide)
      (by decide)
  · exact (claim_C7_win_and_terminal .bonus wonStateW 0 0).2 (by decide)

/-! ### Claim C8: turn switching and no win by elimination -/

theorem rival_ne (p : Player) : rival p ≠ p := by
  cases p <;> simp [rival]

theorem applyMove_no_win (s : GameState) (r c : Int) (d f : Pos)
    (hnw : hasPlayerWon (applyMoveBoard s d f) s.activePlayer = false) :
    (applyMove s r c d f).2.activePlayer =
      (if rivalHasPieces (applyMoveBoard s d f) s.activePlayer = true then
        rival s.activePlayer else s.activePlayer) ∧
    (applyMove s r c d f).2.winner = s.winner ∧
    (applyMove s r c d f).2.status = s.status := by
  have hnw3 : hasPlayerWon
      (setPieceAt (setPieceAt (capture s.board
          (getCapturesForDestination s.move d)) d
        (getPieceAt (capture s.board (getCapturesForDestination s.move d)) f))
        f none) s.activePlayer = false := hnw
  unfold applyMove
  dsimp only
  rw [if_neg (by rw [hnw3]; simp)]
  by_cases hriv : rivalHasPieces (applyMoveBoard s d f) s.activePlayer = true
  · have hriv3 : rivalHasPieces
        (setPieceAt (setPieceAt (capture s.board
            (getCapturesForDestination s.move d)) d
          (getPieceAt (capture s.board
            (getCapturesForDestination s.move d)) f))
          f none) s.activePlayer = true := hriv
    rw [if_pos hriv3, if_pos hriv]
    exact ⟨rfl, rfl, rfl⟩
  · have hriv3 : ¬ (rivalHasPieces
        (setPieceAt (setPieceAt (capture s.board
            (getCapturesForDestination s.move d)) d
          (getPieceAt (capture s.board
            (getCapturesForDestination s.move d)) f))
          f none) s.activePlayer = true) := hriv
    rw [if_neg hriv3, if_neg hriv]
    exact ⟨rfl, rfl, rfl⟩

/-- C8: after a valid destination click that does not put the mover's
queen on the winning row, the active player switches to the rival exactly
when the rival still has a piece on the board; when the move wiped out
every rival piece the active player is unchanged, no winner is set and
the status stays active — there is no win-by-elimination transition. -/
theorem claim_C8_turn_switch (v : Variant) (s : GameState) (r c : Int)
    (d f : Pos) (hrc : getTile r c = some d) (hw : s.winner = none)
    (hq : playerHasQueen s.board s.activePlayer = true)
    (hfrom : s.move.fromT = some f) (hto : s.move.toT = none)
    (hfd : f ≠ d) (htv : isToValid s.move d = true)
    (hst : s.status = GameStatus.active)
    (hnw : hasPlayerWon (playGame v s r c).2.board s.activePlayer = false) :
    ((playGame v s r c).2.activePlayer = rival s.activePlayer ↔
      rivalHasPieces (playGame v s r c).2.board s.activePlayer = true) ∧
    (rivalHasPieces (playGame v s r c).2.board s.activePlayer = false →
      (playGame v s r c).2.activePlayer = s.activePlayer ∧
      (playGame v s r c).2.winner = none ∧
      (playGame v s r c).2.status = GameStatus.active) := by
  have hplay := @playGame_applyMove v s r c d f hrc hw hq hfrom hto hfd htv
  rw [hplay] at hnw ⊢
  rw [applyMove_board2] at hnw ⊢
  obtain ⟨hap, hwin2, hst2⟩ := applyMove_no_win s r c d f hnw
  constructor
  · by_cases hriv : rivalHasPieces (applyMoveBoard s d f) s.activePlayer = true
    · rw [hap, if_pos hriv]
      exact iff_of_true rfl hriv
    · rw [hap, if_neg hriv]
      refine iff_of_false ?_ hriv
      intro hcontra
      exact rival_ne s.activePlayer hcontra.symm
  · intro hrivf
    have hriv : ¬ (rivalHasPieces (applyMoveBoard s d f)
        s.activePlayer = true) := by
      rw [hrivf]
      simp
    rw [hap, if_neg hriv]
    exact ⟨rfl, by rw [hwin2, hw], by rw [hst2, hst]⟩

def c8Board : Board :=
  ((List.replicate 64 (none : Option Piece)).set 16
    (some ⟨Player.blue, PieceType.queen⟩)).set 45
    (some ⟨Player.red, PieceType.pawn⟩)

def c8State : GameState :=
  ⟨c8Board, .active, none,
    setFromMove .bonus c8Board Player.blue ⟨2, 0⟩ emptyMove, Player.blue⟩

theorem claim_C8_turn_switch_witness :
    ((playGame .bonus c8State 3 1).2.activePlayer = rival Player.blue ↔
      rivalHasPieces (playGame .bonus c8State 3 1).2.board
        Player.blue = true) ∧
    (rivalHasPieces (playGame .bonus c8State 3 1).2.board
        Player.blue = false →
      (playGame .bonus c8State 3 1).2.activePlayer = Player.blue ∧
      (playGame .bonus c8State 3 1).2.winner = none ∧
      (playGame .bonus c8State 3 1).2.status = GameStatus.active) :=
  claim_C8_turn_switch .bonus c8State 3 1 ⟨3, 1⟩ ⟨2, 0⟩ (by decide)
    (by decide) (by decide) (by decide) (by decide) (by decide) (by decide)
    (by decide) (by decide)

/-! ### Claim C9: queen selection from the idle pieces -/

theorem inB_bounds {p : Pos} (h : p.inB = true) :
    0 ≤ p.row ∧ p.row < 8 ∧ 0 ≤ p.col ∧ p.col < 8 := by
  unfold Pos.inB inBounds at h
  simp only [Bool.and_eq_true, decide_eq_true_eq] at h
  omega

theorem foldl_rowMin_le (l : List Pos) :
    ∀ init : Int,
      (l.foldl (fun acc t => if t.row < acc then t.row else acc) init) ≤
        init ∧
      ∀ u ∈ l,
        (l.foldl (fun acc t => if t.row < acc then t.row else acc) init) ≤
          u.row := by
  induction l with
  | nil =>
    intro init
    exact ⟨le_refl _, fun u hu => absurd hu (List.not_mem_nil u)⟩
  | cons a l ih =>
    intro init
    rw [List.foldl_cons]
    obtain ⟨h1, h2⟩ := ih (if a.row < init then a.row else init)
    have hle1 : (if a.row < init then a.row else init) ≤ init := by
      split <;> omega
    have hle2 : (if a.row < init then a.row else init) ≤ a.row := by
      split <;> omega
    constructor
    · exact le_trans h1 hle1
    · intro u hu
      rcases List.mem_cons.1 hu with rfl | hu2
      · exact le_trans h1 hle2
      · exact h2 u hu2

theorem foldl_rowMin_mem (l : List Pos) :
    ∀ init : Int,
      (l.foldl (fun acc t => if t.row < acc then t.row else acc) init) =
        init ∨
      ∃ u ∈ l,
        (l.foldl (fun acc t => if t.row < acc then t.row else acc) init) =
          u.row := by
  induction l with
  | nil => intro init; exact Or.inl rfl
  | cons a l ih =>
    intro init
    rw [List.foldl_cons]
    rcases ih (if a.row < init then a.row else init) with h | ⟨u, hu, h⟩
    · by_cases hc : a.row < init
      · refine Or.inr ⟨a, List.mem_cons_self a l, ?_⟩
        rw [h, if_pos hc]
      · refine Or.inl ?_
        rw [h, if_neg hc]
    · exact Or.inr ⟨u, List.mem_cons_of_mem a hu, h⟩

theorem foldl_rowMax_ge (l : List Pos) :
    ∀ init : Int,
      init ≤
        (l.foldl (fun acc t => if acc < t.row then t.row else acc) init) ∧
      ∀ u ∈ l,
        u.row ≤
          (l.foldl (fun acc t => if acc < t.row then t.row else acc) init) := by
  induction l with
  | nil =>
    intro init
    exact ⟨le_refl _, fun u hu => absurd hu (List.not_mem_nil u)⟩
  | cons a l ih =>
    intro init
    rw [List.foldl_cons]
    obtain ⟨h1, h2⟩ := ih (if init < a.row then a.row else init)
    have hle1 : init ≤ (if init < a.row then a.row else init) := by
      split <;> omega
    have hle2 : a.row ≤ (if init < a.row then a.row else init) := by
      split <;> omega
    constructor
    · exact le_trans hle1 h1
    · intro u hu
      rcases List.mem_cons.1 hu with rfl | hu2
      · exact le_trans hle2 h1
      · exact h2 u hu2

theorem foldl_rowMax_mem (l : List Pos) :
    ∀ init : Int,
      (l.foldl (fun acc t => if acc < t.row then t.row else acc) init) =
        init ∨
      ∃ u ∈ l,
        (l.foldl (fun acc t => if acc < t.row then t.row else acc) init) =
          u.row := by
  induction l with
  | nil => intro init; exact Or.inl rfl
  | cons a l ih =>
    intro init
    rw [List.foldl_cons]
    rcases ih (if init < a.row then a.row else init) with h | ⟨u, hu, h⟩
    · by_cases hc : init < a.row
      · refine Or.inr ⟨a, List.mem_cons_self a l, ?_⟩
        rw [h, if_pos hc]
      · refine Or.inl ?_
        rw [h, if_neg hc]
    · exact Or.inr ⟨u, List.mem_cons_of_mem a hu, h⟩

theorem getIdlePieceTiles_blue (b : Board) :
    getIdlePieceTiles b Player.blue =
      (allTiles.filter (fun p => tileBelongsToPlayer b p Player.blue)).filter
        (fun t => t.row ==
          (allTiles.filter (fun p => tileBelongsToPlayer b p Player.blue)).foldl
            (fun acc t => if t.row < acc then t.row else acc) 7) := rfl

theorem getIdlePieceTiles_red (b : Board) :
    getIdlePieceTiles b Player.red =
      (allTiles.filter (fun p => tileBelongsToPlayer b p Player.red)).filter
        (fun t => t.row ==
          (allTiles.filter (fun p => tileBelongsToPlayer b p Player.red)).foldl
            (fun acc t => if acc < t.row then t.row else acc) 0) := rfl

/-- The idle-piece tiles are exactly the player's occupied tiles on the
extreme row: minimum row for blue, maximum row for red. -/
theorem mem_getIdlePieceTiles (b : Board) (player : Player) (t : Pos) :
    t ∈ getIdlePieceTiles b player ↔
      (tileBelongsToPlayer b t player = true ∧
        ∀ u, u.inB = true → tileBelongsToPlayer b u player = true →
          (if player = Player.blue then t.row ≤ u.row
           else u.row ≤ t.row)) := by
  cases player
  case blue =>
    rw [getIdlePieceTiles_blue]
    simp only [List.mem_filter, beq_iff_eq]
    constructor
    · rintro ⟨⟨-, hbel⟩, hrow⟩
      refine ⟨hbel, ?_⟩
      intro u huin hubel
      show t.row ≤ u.row
      rw [hrow]
      exact (foldl_rowMin_le _ 7).2 u
        (List.mem_filter.2 ⟨mem_allTiles.2 huin, hubel⟩)
    · rintro ⟨hbel, hall⟩
      have hin : t.inB = true := belongs_inB hbel
      have htm : t ∈ (allTiles.filter
          (fun p => tileBelongsToPlayer b p Player.blue)) :=
        List.mem_filter.2 ⟨mem_allTiles.2 hin, hbel⟩
      refine ⟨⟨mem_allTiles.2 hin, hbel⟩, ?_⟩
      have hgeF := (foldl_rowMin_le (allTiles.filter
        (fun p => tileBelongsToPlayer b p Player.blue)) 7).2 t htm
      rcases foldl_rowMin_mem (allTiles.filter
          (fun p => tileBelongsToPlayer b p Player.blue)) 7 with h7 | ⟨u, hu, hF⟩
      · have hb := inB_bounds hin
        omega
      · obtain ⟨huA, hubel⟩ := List.mem_filter.1 hu
        have h2 : t.row ≤ u.row := hall u (mem_allTiles.1 huA) hubel
        omega
  case red =>
    rw [getIdlePieceTiles_red]
    simp only [List.mem_filter, beq_iff_eq]
    constructor
    · rintro ⟨⟨-, hbel⟩, hrow⟩
      refine ⟨hbel, ?_⟩
      intro u huin hubel
      show u.row ≤ t.row
      rw [hrow]
      exact (foldl_rowMax_ge _ 0).2 u
        (List.mem_filter.2 ⟨mem_allTiles.2 huin, hubel⟩)
    · rintro ⟨hbel, hall⟩
      have hin : t.inB = true := belongs_inB hbel
      have htm : t ∈ (allTiles.filter
          (fun p => tileBelongsToPlayer b p Player.red)) :=
        List.mem_filter.2 ⟨mem_allTiles.2 hin, hbel⟩
      refine ⟨⟨mem_allTiles.2 hin, hbel⟩, ?_⟩
      have hgeF := (foldl_rowMax_ge (allTiles.filter
        (fun p => tileBelongsToPlayer b p Player.red)) 0).2 t htm
      rcases foldl_rowMax_mem (allTiles.filter
          (fun p => tileBelongsToPlayer b p Player.red)) 0 with h0 | ⟨u, hu, hF⟩
      · have hb := inB_bounds hin
        omega
      · obtain ⟨huA, hubel⟩ := List.mem_filter.1 hu
        have h2 : u.row ≤ t.row := hall u (mem_allTiles.1 huA) hubel
        omega

theorem isValidQueen_iff {b : Board} {t : Pos} {player : Player} :
    isValidQueen b t player = true ↔ t ∈ getIdlePieceTiles b player := by
  unfold isValidQueen
  rw [List.any_eq_true]
  constructor
  · rintro ⟨i, hi, hdec⟩
    rw [decide_eq_true_eq] at hdec
    subst hdec
    exact hi
  · intro ht
    exact ⟨t, ht, by rw [decide_eq_true_eq]⟩

/-- C9: when the active player has no queen, a click is accepted exactly
on an idle-piece tile — a tile of the player's on the minimum row of the
player's pieces for blue, the maximum row for red — and acceptance
replaces that piece with the player's queen; any other click returns no
instruction and leaves the state unchanged. -/
theorem claim_C9_queen_selection (v : Variant) (s : GameState) (r c : Int)
    (hw : s.winner = none)
    (hq : playerHasQueen s.board s.activePlayer = false) :
    (∀ t, getTile r c = some t →
      (((playGame v s r c).1 ≠ none ↔
          t ∈ getIdlePieceTiles s.board s.activePlayer) ∧
       (t ∈ getIdlePieceTiles s.board s.activePlayer →
         (playGame v s r c).2.board =
           setPieceAt s.board t (some ⟨s.activePlayer, PieceType.queen⟩)) ∧
       (t ∉ getIdlePieceTiles s.board s.activePlayer →
         playGame v s r c = (none, s)))) ∧
    (getTile r c = none → playGame v s r c = (none, s)) ∧
    (∀ t, t ∈ getIdlePieceTiles s.board s.activePlayer ↔
      (tileBelongsToPlayer s.board t s.activePlayer = true ∧
        ∀ u, u.inB = true →
          tileBelongsToPlayer s.board u s.activePlayer = true →
          (if s.activePlayer = Player.blue then t.row ≤ u.row
           else u.row ≤ t.row))) := by
  refine ⟨?_, ?_, fun t => mem_getIdlePieceTiles s.board s.activePlayer t⟩
  · intro t hrc
    by_cases hmem : t ∈ getIdlePieceTiles s.board s.activePlayer
    · have hvq : isValidQueen s.board t s.activePlayer = true :=
        isValidQueen_iff.2 hmem
      rw [playGame_promote hrc hw hq hvq]
      refine ⟨iff_of_true ?_ hmem, fun _ => promoteQueen_board s r c t,
        fun hn => absurd hmem hn⟩
      exact Option.isSome_iff_ne_none.1 (promoteQueen_fst s r c t)
    · have hvq : isValidQueen s.board t s.activePlayer = false := by
        rw [Bool.eq_false_iff]
        intro h
        exact hmem (isValidQueen_iff.1 h)
      rw [playGame_promote_invalid hrc hw hq hvq]
      exact ⟨iff_of_false (by simp) hmem,
        fun hmem2 => absurd hmem2 hmem, fun _ => rfl⟩
  · intro hrc
    exact playGame_oob hrc

def c9Board : Board :=
  ((List.replicate 64 (none : Option Piece)).set 16
    (some ⟨Player.blue, PieceType.pawn⟩)).set 25
    (some ⟨Player.blue, PieceType.pawn⟩)

def c9State : GameState :=
  ⟨c9Board, .active, none, emptyMove, Player.blue⟩

theorem claim_C9_queen_selection_witness :
    ((playGame .base c9State 2 0).1 ≠ none ∧
     (playGame .base c9State 2 0).2.board =
       setPieceAt c9Board ⟨2, 0⟩ (some ⟨Player.blue, PieceType.queen⟩) ∧
     playGame .base c9State 3 1 = (none, c9State) ∧
     playGame .base c9State 0 (-2) = (none, c9State)) := by
  have h1 := claim_C9_queen_selection .base c9State 2 0 (by decide) (by decide)
  have h2 := claim_C9_queen_selection .base c9State 3 1 (by decide) (by decide)
  have h3 := claim_C9_queen_selection .base c9State 0 (-2) (by decide)
    (by decide)
  refine ⟨?_, ?_, ?_, ?_⟩
  · exact ((h1.1 ⟨2, 0⟩ (by decide)).1).2 (by decide)
  · exact ((h1.1 ⟨2, 0⟩ (by decide)).2.1) (by decide)
  · exact ((h2.1 ⟨3, 1⟩ (by decide)).2.2) (by decide)
  · exact h3.2.1 (by decide)

/-! ### Claim C10: an accepted from-click only writes the move scratch -/

theorem isFromValid_belongs {v : Variant} {b : Board} {t : Pos}
    {p : Player} (h : isFromValid v b t p = true) :
    tileBelongsToPlayer b t p = true := by
  by_cases hb : tileBelongsToPlayer b t p = true
  · exact hb
  · exfalso
    cases v
    · have h2 : baseFromValid b t p = true := h
      unfold baseFromValid at h2
      rw [if_neg hb] at h2
      cases h2
    · have h2 : bonusFromValid b t p = true := h
      unfold bonusFromValid at h2
      rw [if_neg hb] at h2
      cases h2

theorem setFromMove_paths {v : Variant} {b : Board} {player : Player}
    {f : Pos} {piece : Piece} (hpc : getPieceAt b f = some piece) :
    (setFromMove v b player f emptyMove).possiblePaths =
      setPathsDFS b f piece FUEL f [] := by
  unfold setFromMove
  rw [hpc]
  cases v <;> rfl

/-- C10: an accepted from-selection click leaves every tile's occupant,
the active player, the winner and the status unchanged — only the move
scratch state (from, possiblePaths, validDestinations) is written.  The
returned instruction labels the clicked square as empty for the UI, yet
the recorded possiblePaths are the DFS paths computed on the unmodified
board, where the source square is still occupied by the selected
piece. -/
theorem claim_C10_from_click_frame (v : Variant) (s : GameState)
    (r c : Int) (t : Pos) (hrc : getTile r c = some t)
    (hw : s.winner = none)
    (hq : playerHasQueen s.board s.activePlayer = true)
    (hfrom : s.move.fromT = none)
    (hv : isFromValid v s.board t s.activePlayer = true) :
    (playGame v s r c).2.board = s.board ∧
    (playGame v s r c).2.activePlayer = s.activePlayer ∧
    (playGame v s r c).2.winner = none ∧
    (playGame v s r c).2.status = s.status ∧
    (playGame v s r c).2.move.fromT = some t ∧
    (∃ piece, getPieceAt s.board t = some piece ∧
      (playGame v s r c).2.move.possiblePaths =
        setPathsDFS s.board t piece FUEL t []) ∧
    (playGame v s r c).1 =
      some ⟨[⟨r, c, TileOwner.none⟩], s.activePlayer, none⟩ := by
  have hbel : tileBelongsToPlayer s.board t s.activePlayer = true :=
    isFromValid_belongs hv
  have hok : (isFromValidPost v s.board s.move t s.activePlayer).1 =
      true := by
    unfold isFromValidPost
    rw [if_pos hbel]
    exact hv
  have hm2 : (isFromValidPost v s.board s.move t s.activePlayer).2 =
      emptyMove := by
    unfold isFromValidPost
    rw [if_pos hbel]
  have hplay := @playGame_selectFrom v s r c t hrc hw hq hfrom hok
  rw [hm2] at hplay
  have hpcx : ∃ piece, getPieceAt s.board t = some piece := by
    unfold tileBelongsToPlayer at hbel
    rcases hg : getPieceAt s.board t with _ | pc
    · rw [hg] at hbel
      cases hbel
    · exact ⟨pc, rfl⟩
  obtain ⟨piece, hpiece⟩ := hpcx
  rw [hplay]
  refine ⟨rfl, rfl, ?_, rfl, ?_, ⟨piece, hpiece, ?_⟩, ?_⟩
  · show s.winner = none
    exact hw
  · rw [selectFrom_move]
    exact setFromMove_fromT v s.board s.activePlayer t emptyMove
  · rw [selectFrom_move]
    exact setFromMove_paths hpiece
  · show (some ⟨[⟨r, c, TileOwner.none⟩], s.activePlayer, s.winner⟩ :
      Option Instruction) = _
    rw [hw]

theorem claim_C10_from_click_frame_witness :
    (playGame .base initialState 2 0).2.board = initialState.board ∧
    (playGame .base initialState 2 0).2.activePlayer = Player.blue ∧
    (playGame .base initialState 2 0).2.winner = none ∧
    (playGame .base initialState 2 0).2.status = GameStatus.active ∧
    (playGame .base initialState 2 0).2.move.fromT = some ⟨2, 0⟩ ∧
    (∃ piece, getPieceAt initialState.board ⟨2, 0⟩ = some piece ∧
      (playGame .base initialState 2 0).2.move.possiblePaths =
        setPathsDFS initialState.board ⟨2, 0⟩ piece FUEL ⟨2, 0⟩ []) ∧
    (playGame .base initialState 2 0).1 =
      some ⟨[⟨2, 0, TileOwner.none⟩], Player.blue, none⟩ :=
  claim_C10_from_click_frame .base initialState 2 0 ⟨2, 0⟩ (by decide)
    (by decide) (by decide) (by decide) (by decide)

end Checkers
